import Mathlib

/-!
# Margin recovery: a verification of the hidden-data reconstruction pipeline

This file embeds, as Lean definitions over exact arithmetic, the margin-recovery
procedure of the repository's "Solving for Hidden Data" notebook (together with
the small combinatorial identity of the "PermDist" notebook), and proves the
specification's claims about them.

The pipeline works over the 8 cells of a joint distribution on `(x1, x2, y)`
with `x1, x2, y ∈ {0, 1}`; cell `k : Fin 8` stands for
`x1 = k % 2`, `x2 = k / 2 % 2`, `y = k / 4` (so the enumeration order is
`(0,0,F), (1,0,F), (0,1,F), (1,1,F), (0,0,T), (1,0,T), (0,1,T), (1,1,T)`,
exactly the column order of the notebook's `margin_transform` table).

Floating-point numerics of the source (R doubles) are modelled by real
numbers; the numerical routines are modelled by their defining mathematical
property: `solve(qr(margin_transform), obs)` by "a least-squares minimiser of
the residual", `optimize(entropy, ..., maximum = TRUE)` over the feasible
family by "a feasibility-constrained entropy maximiser".
-/

namespace MarginRecovery

/-- The fixed 12×8 aggregation ("censoring") matrix of the notebook, row for
row the table printed there: rows 0–3 are `p(x1, *, y)` for
`(x1,y) = (0,F), (1,F), (0,T), (1,T)`; rows 4–7 are `p(*, x2, y)` in the same
order; rows 8–11 are `p(x1, x2, *)` for `(x1,x2) = (0,0), (1,0), (0,1), (1,1)`. -/
def margin_transform {α : Type} [Field α] : Matrix (Fin 12) (Fin 8) α :=
  Matrix.of ![
    ![1,0,1,0,0,0,0,0], ![0,1,0,1,0,0,0,0], ![0,0,0,0,1,0,1,0], ![0,0,0,0,0,1,0,1],
    ![1,1,0,0,0,0,0,0], ![0,0,1,1,0,0,0,0], ![0,0,0,0,1,1,0,0], ![0,0,0,0,0,0,1,1],
    ![1,0,0,0,1,0,0,0], ![0,1,0,0,0,1,0,0], ![0,0,1,0,0,0,1,0], ![0,0,0,1,0,0,0,1]]

/-- The null-space direction of `margin_transform`, as the notebook normalises
it (`ns <- ns / (mean(abs(ns)) * ifelse(ns[[1]] >= 0, 1, -1))`, printed as
`1 -1 -1 1 -1 1 1 -1`); it coincides with the notebook's `test_vec`,
`(-1)^x1 * (-1)^x2 * (-1)^y` in the cell order above. -/
def ns {α : Type} [Field α] : Fin 8 → α := ![1, -1, -1, 1, -1, 1, 1, -1]

/-- The independence-based estimate `dxe` of the joint `x1 × x2` table from the
two observed marginals: `dxe$proportion <- dxe$proportion.x * dxe$proportion.y`
on the cross join, i.e. an outer product `result i j = p i * q j`
(`i` indexes `x1`, `j` indexes `x2`). -/
def estimate_joint_xx {α : Type} [Field α] (p q : Fin 2 → α) : Fin 2 → Fin 2 → α :=
  fun i j => p i * q j

/-- Experimenter 1's `x1` marginal, `aggregate(proportion ~ x1, data = d1, sum)`:
`d1` is ordered `(x1,y) = (0,F), (1,F), (0,T), (1,T)`, so the `x1 = i` total is
entry `i` plus entry `i + 2`. -/
def aggregate_x1 {α : Type} [Field α] (d1 : Fin 4 → α) : Fin 2 → α :=
  ![d1 0 + d1 2, d1 1 + d1 3]

/-- Experimenter 2's `x2` marginal, `aggregate(proportion ~ x2, data = d2, sum)`,
with `d2` ordered `(x2,y) = (0,F), (1,F), (0,T), (1,T)`. -/
def aggregate_x2 {α : Type} [Field α] (d2 : Fin 4 → α) : Fin 2 → α :=
  ![d2 0 + d2 2, d2 1 + d2 3]

/-- The notebook's `estimated_proportions <- c(d1$proportion, d2$proportion,
dxe$proportion)`: the 12-entry observation vector in the row order of
`margin_transform` (the `xx` block is ordered by `x2` then `x1`, as `dxe` is
after `dxe[order(dxe$x2, dxe$x1), ]`). -/
def assemble_observations {α : Type} [Field α] (d1 d2 : Fin 4 → α)
    (xx : Fin 2 → Fin 2 → α) : Fin 12 → α :=
  ![d1 0, d1 1, d1 2, d1 3, d2 0, d2 1, d2 2, d2 3, xx 0 0, xx 1 0, xx 0 1, xx 1 1]

/-- What experimenter 1 observes of a full joint distribution `p`: rows 0–3 of
`margin_transform %*% p` (the notebook's `proportion` roll-up table). -/
def observed_d1 {α : Type} [Field α] (p : Fin 8 → α) : Fin 4 → α :=
  ![Matrix.mulVec margin_transform p 0, Matrix.mulVec margin_transform p 1,
    Matrix.mulVec margin_transform p 2, Matrix.mulVec margin_transform p 3]

/-- What experimenter 2 observes of a full joint distribution `p`: rows 4–7 of
`margin_transform %*% p`. -/
def observed_d2 {α : Type} [Field α] (p : Fin 8 → α) : Fin 4 → α :=
  ![Matrix.mulVec margin_transform p 4, Matrix.mulVec margin_transform p 5,
    Matrix.mulVec margin_transform p 6, Matrix.mulVec margin_transform p 7]

/-- The observation vector the pipeline assembles when the hidden truth is `p`:
the two experimenters' marginal tables plus the independence-based `x1 × x2`
estimate built from those same tables. -/
def pipeline_obs {α : Type} [Field α] (p : Fin 8 → α) : Fin 12 → α :=
  assemble_observations (observed_d1 p) (observed_d2 p)
    (estimate_joint_xx (aggregate_x1 (observed_d1 p)) (aggregate_x2 (observed_d2 p)))

/-- The notebook's `sigmoid <- function(x) {1 / (1 + exp(-x))}`. -/
noncomputable def sigmoid (x : ℝ) : ℝ := 1 / (1 + Real.exp (-x))

/-- The `x1` column of the notebook's `detailed_frame` (cell order as above). -/
def cellx1 : Fin 8 → ℝ := ![0, 1, 0, 1, 0, 1, 0, 1]

/-- The `x2` column of the notebook's `detailed_frame`. -/
def cellx2 : Fin 8 → ℝ := ![0, 0, 1, 1, 0, 0, 1, 1]

/-- The `y` column of the notebook's `detailed_frame` (`FALSE` rows first), as
a 0/1 indicator. -/
def celly : Fin 8 → ℝ := ![0, 0, 0, 0, 1, 1, 1, 1]

/-- The synthetic ground truth `proportion` column: per cell,
`x_distribution * p_observed_outcome` with
`x_distribution = (x1*pX1 + (1-x1)*(1-pX1)) * (x2*pX2 + (1-x2)*(1-pX2))` and
`p_observed_outcome = ifelse(y, sigmoid(y_linear), 1 - sigmoid(y_linear))`,
`y_linear = c0 + b1*x1 + b2*x2` — the additive (interaction-free) logit model
of the notebook. -/
noncomputable def ground_truth (pX1 pX2 c0 b1 b2 : ℝ) : Fin 8 → ℝ := fun k =>
  (cellx1 k * pX1 + (1 - cellx1 k) * (1 - pX1))
    * (cellx2 k * pX2 + (1 - cellx2 k) * (1 - pX2))
    * (celly k * sigmoid (c0 + b1 * cellx1 k + b2 * cellx2 k)
        + (1 - celly k) * (1 - sigmoid (c0 + b1 * cellx1 k + b2 * cellx2 k)))

/-- The sum of the strictly positive entries of `v` (the `sum(v)` after the
notebook's `v <- v[v > 0]` filter). -/
noncomputable def posSum {n : ℕ} (v : Fin n → ℝ) : ℝ :=
  ∑ k, if 0 < v k then v k else 0

/-- The notebook's `entropy` function: drop non-positive entries, normalise the
rest by their sum, return `-sum(v * log2(v))`. -/
noncomputable def entropy {n : ℕ} (v : Fin n → ℝ) : ℝ :=
  -∑ k, if 0 < v k then (v k / posSum v) * Real.logb 2 (v k / posSum v) else 0

/-- Squared residual of a candidate solution `v` against the observations:
`‖margin_transform %*% v - obs‖²`. -/
noncomputable def resSq (obs : Fin 12 → ℝ) (v : Fin 8 → ℝ) : ℝ :=
  ∑ i, (Matrix.mulVec margin_transform v i - obs i) ^ 2

/-- Semantics of the notebook's `v <- solve(qr(margin_transform, LAPACK = TRUE),
estimated_proportions)`: `v` is a least-squares solution, i.e. it minimises the
squared residual over all candidate vectors. -/
def is_lstsq (obs : Fin 12 → ℝ) (v : Fin 8 → ℝ) : Prop :=
  ∀ u, resSq obs v ≤ resSq obs u

/-- The normal equations `t(M) %*% (M %*% v - obs) = 0`, the classical
characterisation of least-squares solutions (proved below to imply
`is_lstsq`). -/
def normal_eq (obs : Fin 12 → ℝ) (v : Fin 8 → ℝ) : Prop :=
  ∀ j, ∑ i, margin_transform (α := ℝ) i j * (Matrix.mulVec margin_transform v i - obs i) = 0

/-- Semantics of the notebook's maximum-entropy selection (`optimize` of
`entropy` over the feasible mixtures of `recovered_1` and `recovered_2`,
`maximum = TRUE`): `w` is a non-negative least-squares solution whose entropy
dominates every other non-negative least-squares solution. -/
def select_maxent (obs : Fin 12 → ℝ) (w : Fin 8 → ℝ) : Prop :=
  is_lstsq obs w ∧ (∀ k, 0 ≤ w k) ∧
    ∀ u, is_lstsq obs u → (∀ k, 0 ≤ u k) → entropy u ≤ entropy w

/-- The notebook's `p_vec` invariant: `sum(test_vec * log(v)) = 0`, i.e. the
entrywise logarithm of `v` is orthogonal to the null-space direction `ns`. -/
def log_orth (v : Fin 8 → ℝ) : Prop :=
  ∑ k, ns (α := ℝ) k * Real.log (v k) = 0

/-- Modelled from the spec: `feasible_z_interval`'s lower endpoint. The
notebook states that the valid solutions `v0 + z*ns` form an interval of `z`
but does not print the code computing it; per the spec, each entry with
`ns k = 1` contributes the bound `z ≥ -v0 k`. Specialised to the fixed
direction `ns = (1,-1,-1,1,-1,1,1,-1)`, whose `+1` positions are 0, 3, 5, 6. -/
def z_lo (v0 : Fin 8 → ℝ) : ℝ :=
  max (max (-v0 0) (-v0 3)) (max (-v0 5) (-v0 6))

/-- Modelled from the spec: `feasible_z_interval`'s upper endpoint. Each entry
with `ns k = -1` contributes the bound `z ≤ v0 k`; the `-1` positions of `ns`
are 1, 2, 4, 7. -/
def z_hi (v0 : Fin 8 → ℝ) : ℝ :=
  min (min (v0 1) (v0 4)) (min (v0 2) (v0 7))

/-- Modelled from the spec: the error taxonomy of the engine
(`InconsistentObservations`, `InfeasibleReconstruction`, `DegenerateNullSpace`);
the notebook itself reports no errors, the spec requires them. -/
inductive EngineError : Type
  | InconsistentObservations : EngineError
  | InfeasibleReconstruction : EngineError
  | DegenerateNullSpace : EngineError
deriving DecidableEq

/-- An exact particular least-squares solve for `margin_transform`: the matrix
`(t(M) %*% M + ns %*% t(ns))⁻¹ %*% t(M)`, computed exactly; applying it to any
observation vector yields a solution of the normal equations (proved below).
Used to model `solve_linear` over exact rationals. -/
def lsq_pinv : Matrix (Fin 8) (Fin 12) ℚ :=
  Matrix.of ![
    ![7/24, -1/12, -1/12, 1/24, 7/24, -1/12, -1/12, 1/24, 7/24, -1/12, -1/12, 1/24],
    ![-1/12, 7/24, 1/24, -1/12, 7/24, -1/12, -1/12, 1/24, -1/12, 7/24, 1/24, -1/12],
    ![7/24, -1/12, -1/12, 1/24, -1/12, 7/24, 1/24, -1/12, -1/12, 1/24, 7/24, -1/12],
    ![-1/12, 7/24, 1/24, -1/12, -1/12, 7/24, 1/24, -1/12, 1/24, -1/12, -1/12, 7/24],
    ![-1/12, 1/24, 7/24, -1/12, -1/12, 1/24, 7/24, -1/12, 7/24, -1/12, -1/12, 1/24],
    ![1/24, -1/12, -1/12, 7/24, -1/12, 1/24, 7/24, -1/12, -1/12, 7/24, 1/24, -1/12],
    ![-1/12, 1/24, 7/24, -1/12, 1/24, -1/12, -1/12, 7/24, -1/12, 1/24, 7/24, -1/12],
    ![1/24, -1/12, -1/12, 7/24, 1/24, -1/12, -1/12, 7/24, 1/24, -1/12, -1/12, 7/24]]

/-- Squared residual of the exact least-squares solve on a rational observation
vector. -/
def solve_residual_sq (obs : Fin 12 → ℚ) : ℚ :=
  ∑ i, (Matrix.mulVec margin_transform (Matrix.mulVec lsq_pinv obs) i - obs i) ^ 2

/-- Modelled from the spec: `solve_linear` with its failure semantics. The spec
fixes the numeric tolerance for "consistent" at residual norm `< 1e-6`
(equivalently, squared residual `< (1e-6)²`); on an inconsistent observation
vector the engine must report `InconsistentObservations` instead of returning a
point estimate. The notebook only shows the raw QR solve; the residual check
and error report are not in the repository's files. -/
def solve_linear (obs : Fin 12 → ℚ) : Except EngineError (Fin 8 → ℚ) :=
  if solve_residual_sq obs < (1/1000000 : ℚ) ^ 2 then
    Except.ok (Matrix.mulVec lsq_pinv obs)
  else
    Except.error EngineError.InconsistentObservations

/-- Experimenter 1's table in the worked example:
`d1 = (0.6100538, 0.2386123, 0.0899462, 0.0613877)`. -/
noncomputable def d1_example : Fin 4 → ℝ :=
  ![6100538/10000000, 2386123/10000000, 899462/10000000, 613877/10000000]

/-- Experimenter 2's table in the worked example:
`d2 = (0.0517616, 0.7969046, 0.1482384, 0.0030954)`. -/
noncomputable def d2_example : Fin 4 → ℝ :=
  ![517616/10000000, 7969046/10000000, 1482384/10000000, 30954/10000000]

/-- The `x1` marginal of the worked example, `P(x1=0) = 0.7`, `P(x1=1) = 0.3`. -/
noncomputable def x1_marginal_example : Fin 2 → ℝ := ![7/10, 3/10]

/-- The `x2` marginal of the worked example, `P(x2=0) = 0.2`, `P(x2=1) = 0.8`. -/
noncomputable def x2_marginal_example : Fin 2 → ℝ := ![1/5, 4/5]

/-- The assembled 12-entry observation vector of the worked example. -/
noncomputable def obs_example : Fin 12 → ℝ :=
  assemble_observations d1_example d2_example
    (estimate_joint_xx x1_marginal_example x2_marginal_example)

/-- The maximum-entropy vector the spec requires for the worked example, to be
matched within `1e-4`, in cell order
`(0,0,F), (1,0,F), (0,1,F), (1,1,F), (0,0,T), (1,0,T), (0,1,T), (1,1,T)`. -/
noncomputable def maxent_target : Fin 8 → ℝ :=
  ![5034/100000, 142/100000, 55971/100000, 23719/100000,
    8966/100000, 5858/100000, 29/100000, 281/100000]

/-- An exact particular least-squares solution for `obs_example` (the value of
`lsq_pinv %*% obs_example`, written out): it satisfies the normal equations
(proved below). -/
noncomputable def vp_example : Fin 8 → ℝ :=
  ![7099293/80000000, -2958367/80000000, 41705013/80000000, 22047353/80000000,
    4100707/80000000, 7758367/80000000, 3094987/80000000, -2847353/80000000]

/-- A balanced distribution used to separate "orthogonal to `ns`" from
"entrywise log orthogonal to `ns`": its cell products over the `+1` and `-1`
positions of `ns` agree (`4·2·1·1 = 2·1·2·2`), so its log-vector is orthogonal
to `ns`, but the vector itself is not. -/
noncomputable def v_balanced : Fin 8 → ℝ :=
  ![4/15, 2/15, 1/15, 2/15, 2/15, 1/15, 1/15, 2/15]

end MarginRecovery

namespace PermDist

/-- The PermDist notebook's `f(n)`: the double sum of `abs(b - a)` over
`a, b ∈ {0, …, n-1}` with `b ≠ a`. -/
def f (n : ℕ) : ℕ :=
  ∑ a ∈ Finset.range n, ∑ b ∈ Finset.range n,
    if b ≠ a then ((b : ℤ) - (a : ℤ)).natAbs else 0

/-- The closed-form polynomial the notebook recovers by regression and
rationalisation: intercept `0` and coefficients `(-1/3, 0, 1/3)` for
`(n, n², n³)`. -/
def g (x : ℚ) : ℚ := 0 + (-1/3) * x + 0 * x ^ 2 + (1/3) * x ^ 3

end PermDist

/-! ## Small evaluation helpers: literal vectors at high indices, longer
`Fin` sums, and case exhaustion, which Mathlib does not provide ready-made. -/

section VecEval

variable {β : Type*}

@[simp] lemma vec8_five (a b c d e a5 a6 a7 : β) :
    (![a, b, c, d, e, a5, a6, a7] : Fin 8 → β) 5 = a5 := rfl

@[simp] lemma vec8_six (a b c d e a5 a6 a7 : β) :
    (![a, b, c, d, e, a5, a6, a7] : Fin 8 → β) 6 = a6 := rfl

@[simp] lemma vec8_seven (a b c d e a5 a6 a7 : β) :
    (![a, b, c, d, e, a5, a6, a7] : Fin 8 → β) 7 = a7 := rfl

@[simp] lemma vec12_five (a b c d e a5 a6 a7 a8 a9 a10 a11 : β) :
    (![a, b, c, d, e, a5, a6, a7, a8, a9, a10, a11] : Fin 12 → β) 5 = a5 := rfl

@[simp] lemma vec12_six (a b c d e a5 a6 a7 a8 a9 a10 a11 : β) :
    (![a, b, c, d, e, a5, a6, a7, a8, a9, a10, a11] : Fin 12 → β) 6 = a6 := rfl

@[simp] lemma vec12_seven (a b c d e a5 a6 a7 a8 a9 a10 a11 : β) :
    (![a, b, c, d, e, a5, a6, a7, a8, a9, a10, a11] : Fin 12 → β) 7 = a7 := rfl

@[simp] lemma vec12_eight (a b c d e a5 a6 a7 a8 a9 a10 a11 : β) :
    (![a, b, c, d, e, a5, a6, a7, a8, a9, a10, a11] : Fin 12 → β) 8 = a8 := rfl

@[simp] lemma vec12_nine (a b c d e a5 a6 a7 a8 a9 a10 a11 : β) :
    (![a, b, c, d, e, a5, a6, a7, a8, a9, a10, a11] : Fin 12 → β) 9 = a9 := rfl

@[simp] lemma vec12_ten (a b c d e a5 a6 a7 a8 a9 a10 a11 : β) :
    (![a, b, c, d, e, a5, a6, a7, a8, a9, a10, a11] : Fin 12 → β) 10 = a10 := rfl

@[simp] lemma vec12_eleven (a b c d e a5 a6 a7 a8 a9 a10 a11 : β) :
    (![a, b, c, d, e, a5, a6, a7, a8, a9, a10, a11] : Fin 12 → β) 11 = a11 := rfl

lemma forall_fin_two {P : Fin 2 → Prop} (h0 : P 0) (h1 : P 1) : ∀ i, P i := by
  intro i
  fin_cases i
  exacts [h0, h1]

lemma forall_fin_four {P : Fin 4 → Prop} (h0 : P 0) (h1 : P 1) (h2 : P 2) (h3 : P 3) :
    ∀ i, P i := by
  intro i
  fin_cases i
  exacts [h0, h1, h2, h3]

lemma forall_fin_eight {P : Fin 8 → Prop} (h0 : P 0) (h1 : P 1) (h2 : P 2) (h3 : P 3)
    (h4 : P 4) (h5 : P 5) (h6 : P 6) (h7 : P 7) : ∀ i, P i := by
  intro i
  fin_cases i
  exacts [h0, h1, h2, h3, h4, h5, h6, h7]

lemma forall_fin_twelve {P : Fin 12 → Prop} (h0 : P 0) (h1 : P 1) (h2 : P 2) (h3 : P 3)
    (h4 : P 4) (h5 : P 5) (h6 : P 6) (h7 : P 7) (h8 : P 8) (h9 : P 9) (h10 : P 10)
    (h11 : P 11) : ∀ i, P i := by
  intro i
  fin_cases i
  exacts [h0, h1, h2, h3, h4, h5, h6, h7, h8, h9, h10, h11]

end VecEval

section SumEval

variable {M' : Type*} [AddCommMonoid M']

lemma sum_univ_nine (f : Fin 9 → M') :
    ∑ i, f i = f 0 + f 1 + f 2 + f 3 + f 4 + f 5 + f 6 + f 7 + f 8 := by
  rw [Fin.sum_univ_castSucc, Fin.sum_univ_eight]
  rfl

lemma sum_univ_ten (f : Fin 10 → M') :
    ∑ i, f i = f 0 + f 1 + f 2 + f 3 + f 4 + f 5 + f 6 + f 7 + f 8 + f 9 := by
  rw [Fin.sum_univ_castSucc, sum_univ_nine]
  rfl

lemma sum_univ_eleven (f : Fin 11 → M') :
    ∑ i, f i = f 0 + f 1 + f 2 + f 3 + f 4 + f 5 + f 6 + f 7 + f 8 + f 9 + f 10 := by
  rw [Fin.sum_univ_castSucc, sum_univ_ten]
  rfl

lemma sum_univ_twelve (f : Fin 12 → M') :
    ∑ i, f i = f 0 + f 1 + f 2 + f 3 + f 4 + f 5 + f 6 + f 7 + f 8 + f 9 + f 10 + f 11 := by
  rw [Fin.sum_univ_castSucc, sum_univ_eleven]
  rfl

end SumEval

namespace MarginRecovery

/-! ## Closed forms for the rows and columns of `margin_transform` applied to a
vector, read off definitionally from the matrix literal. -/

section MarginRows

variable {α : Type} [Field α]

lemma margin_apply_0 (v : Fin 8 → α) :
    Matrix.mulVec margin_transform v 0 = v 0 + v 2 := by
  have h : Matrix.mulVec margin_transform v 0 = 1 * v 0 + (0 * v 1 + (1 * v 2 + (0 * v 3 + (0 * v 4 + (0 * v 5 + (0 * v 6 + (0 * v 7 + (0)))))))) := rfl
  rw [h]; ring

lemma margin_apply_1 (v : Fin 8 → α) :
    Matrix.mulVec margin_transform v 1 = v 1 + v 3 := by
  have h : Matrix.mulVec margin_transform v 1 = 0 * v 0 + (1 * v 1 + (0 * v 2 + (1 * v 3 + (0 * v 4 + (0 * v 5 + (0 * v 6 + (0 * v 7 + (0)))))))) := rfl
  rw [h]; ring

lemma margin_apply_2 (v : Fin 8 → α) :
    Matrix.mulVec margin_transform v 2 = v 4 + v 6 := by
  have h : Matrix.mulVec margin_transform v 2 = 0 * v 0 + (0 * v 1 + (0 * v 2 + (0 * v 3 + (1 * v 4 + (0 * v 5 + (1 * v 6 + (0 * v 7 + (0)))))))) := rfl
  rw [h]; ring

lemma margin_apply_3 (v : Fin 8 → α) :
    Matrix.mulVec margin_transform v 3 = v 5 + v 7 := by
  have h : Matrix.mulVec margin_transform v 3 = 0 * v 0 + (0 * v 1 + (0 * v 2 + (0 * v 3 + (0 * v 4 + (1 * v 5 + (0 * v 6 + (1 * v 7 + (0)))))))) := rfl
  rw [h]; ring

lemma margin_apply_4 (v : Fin 8 → α) :
    Matrix.mulVec margin_transform v 4 = v 0 + v 1 := by
  have h : Matrix.mulVec margin_transform v 4 = 1 * v 0 + (1 * v 1 + (0 * v 2 + (0 * v 3 + (0 * v 4 + (0 * v 5 + (0 * v 6 + (0 * v 7 + (0)))))))) := rfl
  rw [h]; ring

lemma margin_apply_5 (v : Fin 8 → α) :
    Matrix.mulVec margin_transform v 5 = v 2 + v 3 := by
  have h : Matrix.mulVec margin_transform v 5 = 0 * v 0 + (0 * v 1 + (1 * v 2 + (1 * v 3 + (0 * v 4 + (0 * v 5 + (0 * v 6 + (0 * v 7 + (0)))))))) := rfl
  rw [h]; ring

lemma margin_apply_6 (v : Fin 8 → α) :
    Matrix.mulVec margin_transform v 6 = v 4 + v 5 := by
  have h : Matrix.mulVec margin_transform v 6 = 0 * v 0 + (0 * v 1 + (0 * v 2 + (0 * v 3 + (1 * v 4 + (1 * v 5 + (0 * v 6 + (0 * v 7 + (0)))))))) := rfl
  rw [h]; ring

lemma margin_apply_7 (v : Fin 8 → α) :
    Matrix.mulVec margin_transform v 7 = v 6 + v 7 := by
  have h : Matrix.mulVec margin_transform v 7 = 0 * v 0 + (0 * v 1 + (0 * v 2 + (0 * v 3 + (0 * v 4 + (0 * v 5 + (1 * v 6 + (1 * v 7 + (0)))))))) := rfl
  rw [h]; ring

lemma margin_apply_8 (v : Fin 8 → α) :
    Matrix.mulVec margin_transform v 8 = v 0 + v 4 := by
  have h : Matrix.mulVec margin_transform v 8 = 1 * v 0 + (0 * v 1 + (0 * v 2 + (0 * v 3 + (1 * v 4 + (0 * v 5 + (0 * v 6 + (0 * v 7 + (0)))))))) := rfl
  rw [h]; ring

lemma margin_apply_9 (v : Fin 8 → α) :
    Matrix.mulVec margin_transform v 9 = v 1 + v 5 := by
  have h : Matrix.mulVec margin_transform v 9 = 0 * v 0 + (1 * v 1 + (0 * v 2 + (0 * v 3 + (0 * v 4 + (1 * v 5 + (0 * v 6 + (0 * v 7 + (0)))))))) := rfl
  rw [h]; ring

lemma margin_apply_10 (v : Fin 8 → α) :
    Matrix.mulVec margin_transform v 10 = v 2 + v 6 := by
  have h : Matrix.mulVec margin_transform v 10 = 0 * v 0 + (0 * v 1 + (1 * v 2 + (0 * v 3 + (0 * v 4 + (0 * v 5 + (1 * v 6 + (0 * v 7 + (0)))))))) := rfl
  rw [h]; ring

lemma margin_apply_11 (v : Fin 8 → α) :
    Matrix.mulVec margin_transform v 11 = v 3 + v 7 := by
  have h : Matrix.mulVec margin_transform v 11 = 0 * v 0 + (0 * v 1 + (0 * v 2 + (1 * v 3 + (0 * v 4 + (0 * v 5 + (0 * v 6 + (1 * v 7 + (0)))))))) := rfl
  rw [h]; ring

lemma margin_col_0 (r : Fin 12 → α) :
    ∑ i, margin_transform (α := α) i 0 * r i = r 0 + r 4 + r 8 := by
  have h : ∑ i, margin_transform (α := α) i 0 * r i = 1 * r 0 + (0 * r 1 + (0 * r 2 + (0 * r 3 + (1 * r 4 + (0 * r 5 + (0 * r 6 + (0 * r 7 + (1 * r 8 + (0 * r 9 + (0 * r 10 + (0 * r 11 + (0)))))))))))) := rfl
  rw [h]; ring

lemma margin_col_1 (r : Fin 12 → α) :
    ∑ i, margin_transform (α := α) i 1 * r i = r 1 + r 4 + r 9 := by
  have h : ∑ i, margin_transform (α := α) i 1 * r i = 0 * r 0 + (1 * r 1 + (0 * r 2 + (0 * r 3 + (1 * r 4 + (0 * r 5 + (0 * r 6 + (0 * r 7 + (0 * r 8 + (1 * r 9 + (0 * r 10 + (0 * r 11 + (0)))))))))))) := rfl
  rw [h]; ring

lemma margin_col_2 (r : Fin 12 → α) :
    ∑ i, margin_transform (α := α) i 2 * r i = r 0 + r 5 + r 10 := by
  have h : ∑ i, margin_transform (α := α) i 2 * r i = 1 * r 0 + (0 * r 1 + (0 * r 2 + (0 * r 3 + (0 * r 4 + (1 * r 5 + (0 * r 6 + (0 * r 7 + (0 * r 8 + (0 * r 9 + (1 * r 10 + (0 * r 11 + (0)))))))))))) := rfl
  rw [h]; ring

lemma margin_col_3 (r : Fin 12 → α) :
    ∑ i, margin_transform (α := α) i 3 * r i = r 1 + r 5 + r 11 := by
  have h : ∑ i, margin_transform (α := α) i 3 * r i = 0 * r 0 + (1 * r 1 + (0 * r 2 + (0 * r 3 + (0 * r 4 + (1 * r 5 + (0 * r 6 + (0 * r 7 + (0 * r 8 + (0 * r 9 + (0 * r 10 + (1 * r 11 + (0)))))))))))) := rfl
  rw [h]; ring

lemma margin_col_4 (r : Fin 12 → α) :
    ∑ i, margin_transform (α := α) i 4 * r i = r 2 + r 6 + r 8 := by
  have h : ∑ i, margin_transform (α := α) i 4 * r i = 0 * r 0 + (0 * r 1 + (1 * r 2 + (0 * r 3 + (0 * r 4 + (0 * r 5 + (1 * r 6 + (0 * r 7 + (1 * r 8 + (0 * r 9 + (0 * r 10 + (0 * r 11 + (0)))))))))))) := rfl
  rw [h]; ring

lemma margin_col_5 (r : Fin 12 → α) :
    ∑ i, margin_transform (α := α) i 5 * r i = r 3 + r 6 + r 9 := by
  have h : ∑ i, margin_transform (α := α) i 5 * r i = 0 * r 0 + (0 * r 1 + (0 * r 2 + (1 * r 3 + (0 * r 4 + (0 * r 5 + (1 * r 6 + (0 * r 7 + (0 * r 8 + (1 * r 9 + (0 * r 10 + (0 * r 11 + (0)))))))))))) := rfl
  rw [h]; ring

lemma margin_col_6 (r : Fin 12 → α) :
    ∑ i, margin_transform (α := α) i 6 * r i = r 2 + r 7 + r 10 := by
  have h : ∑ i, margin_transform (α := α) i 6 * r i = 0 * r 0 + (0 * r 1 + (1 * r 2 + (0 * r 3 + (0 * r 4 + (0 * r 5 + (0 * r 6 + (1 * r 7 + (0 * r 8 + (0 * r 9 + (1 * r 10 + (0 * r 11 + (0)))))))))))) := rfl
  rw [h]; ring

lemma margin_col_7 (r : Fin 12 → α) :
    ∑ i, margin_transform (α := α) i 7 * r i = r 3 + r 7 + r 11 := by
  have h : ∑ i, margin_transform (α := α) i 7 * r i = 0 * r 0 + (0 * r 1 + (0 * r 2 + (1 * r 3 + (0 * r 4 + (0 * r 5 + (0 * r 6 + (1 * r 7 + (0 * r 8 + (0 * r 9 + (0 * r 10 + (1 * r 11 + (0)))))))))))) := rfl
  rw [h]; ring

end MarginRows

end MarginRecovery

namespace MarginRecovery

/-! ## The null space of `margin_transform` -/

lemma mulVec_margin_ns : Matrix.mulVec margin_transform (ns (α := ℝ)) = 0 := by
  funext i
  revert i
  refine forall_fin_twelve ?_ ?_ ?_ ?_ ?_ ?_ ?_ ?_ ?_ ?_ ?_ ?_ <;>
    · show Matrix.mulVec margin_transform (ns (α := ℝ)) _ = 0
      first
        | rw [margin_apply_0] | rw [margin_apply_1] | rw [margin_apply_2]
        | rw [margin_apply_3] | rw [margin_apply_4] | rw [margin_apply_5]
        | rw [margin_apply_6] | rw [margin_apply_7] | rw [margin_apply_8]
        | rw [margin_apply_9] | rw [margin_apply_10] | rw [margin_apply_11]
      norm_num [ns]

lemma null_space_char (v : Fin 8 → ℝ) (h : Matrix.mulVec margin_transform v = 0) :
    v = fun k => v 0 * ns k := by
  have e0 := congrFun h 0
  have e1 := congrFun h 1
  have e4 := congrFun h 4
  have e8 := congrFun h 8
  have e9 := congrFun h 9
  have e10 := congrFun h 10
  have e11 := congrFun h 11
  rw [margin_apply_0] at e0
  rw [margin_apply_1] at e1
  rw [margin_apply_4] at e4
  rw [margin_apply_8] at e8
  rw [margin_apply_9] at e9
  rw [margin_apply_10] at e10
  rw [margin_apply_11] at e11
  simp only [Pi.zero_apply] at e0 e1 e4 e8 e9 e10 e11
  funext k
  revert k
  refine forall_fin_eight ?_ ?_ ?_ ?_ ?_ ?_ ?_ ?_ <;>
    · show v _ = v 0 * ns _
      norm_num [ns] <;> linarith

/-- Moving along the null direction does not change the image under
`margin_transform`. -/
lemma mulVec_margin_shift (v : Fin 8 → ℝ) (t : ℝ) :
    Matrix.mulVec margin_transform (fun k => v k + t * ns k) =
      Matrix.mulVec margin_transform v := by
  have hfun : (fun k => v k + t * ns (α := ℝ) k) = v + t • ns := by
    funext k
    simp [Pi.add_apply, Pi.smul_apply, smul_eq_mul]
  rw [hfun, Matrix.mulVec_add, Matrix.mulVec_smul, mulVec_margin_ns]
  simp

/-- Any two vectors with the same image under `margin_transform` differ by a
multiple of `ns`. -/
lemma family_of_mulVec_eq (u v : Fin 8 → ℝ)
    (h : Matrix.mulVec margin_transform u = Matrix.mulVec margin_transform v) :
    ∃ t, ∀ k, u k = v k + t * ns k := by
  have hd : Matrix.mulVec margin_transform (u - v) = 0 := by
    rw [Matrix.mulVec_sub, h, sub_self]
  have hchar := null_space_char (u - v) hd
  refine ⟨u 0 - v 0, fun k => ?_⟩
  have hk := congrFun hchar k
  simp only [Pi.sub_apply] at hk
  linarith [hk]

end MarginRecovery

namespace MarginRecovery

/-! ## Least-squares theory for `margin_transform` -/

/-- The squared residual depends only on the image under `margin_transform`. -/
lemma resSq_congr (obs : Fin 12 → ℝ) (a b : Fin 8 → ℝ)
    (h : Matrix.mulVec margin_transform a = Matrix.mulVec margin_transform b) :
    resSq obs a = resSq obs b := by
  unfold resSq
  exact Finset.sum_congr rfl fun i _ => by rw [h]

/-- Quadratic expansion of the squared residual around a base point `v`. -/
lemma resSq_decomp (obs : Fin 12 → ℝ) (u v : Fin 8 → ℝ) :
    resSq obs u = resSq obs v
      + 2 * (∑ i, (Matrix.mulVec margin_transform v i - obs i)
          * Matrix.mulVec margin_transform (u - v) i)
      + ∑ i, (Matrix.mulVec margin_transform (u - v) i) ^ 2 := by
  have hpt : ∀ i, Matrix.mulVec margin_transform u i =
      Matrix.mulVec margin_transform v i + Matrix.mulVec margin_transform (u - v) i := by
    intro i
    rw [Matrix.mulVec_sub]
    simp
  unfold resSq
  have hterm : ∀ i : Fin 12, (Matrix.mulVec margin_transform u i - obs i) ^ 2 =
      (Matrix.mulVec margin_transform v i - obs i) ^ 2
        + 2 * ((Matrix.mulVec margin_transform v i - obs i)
            * Matrix.mulVec margin_transform (u - v) i)
        + (Matrix.mulVec margin_transform (u - v) i) ^ 2 := by
    intro i
    rw [hpt i]
    ring
  rw [Finset.sum_congr rfl fun i _ => hterm i, Finset.sum_add_distrib,
    Finset.sum_add_distrib, Finset.mul_sum]

/-- Under the normal equations, the residual at `v` is orthogonal to the whole
column space of `margin_transform`. -/
lemma normal_eq_resid_orth (obs : Fin 12 → ℝ) (v : Fin 8 → ℝ) (hv : normal_eq obs v)
    (d : Fin 8 → ℝ) :
    ∑ i, (Matrix.mulVec margin_transform v i - obs i)
      * Matrix.mulVec margin_transform d i = 0 := by
  have step1 : ∀ i : Fin 12, (Matrix.mulVec margin_transform v i - obs i)
      * Matrix.mulVec margin_transform d i
      = ∑ j, d j * (margin_transform (α := ℝ) i j
          * (Matrix.mulVec margin_transform v i - obs i)) := by
    intro i
    show _ = ∑ j, d j * (margin_transform (α := ℝ) i j
      * (Matrix.mulVec margin_transform v i - obs i))
    rw [show Matrix.mulVec margin_transform d i
        = ∑ j, margin_transform (α := ℝ) i j * d j from rfl, Finset.mul_sum]
    exact Finset.sum_congr rfl fun j _ => by ring
  rw [Finset.sum_congr rfl fun i _ => step1 i, Finset.sum_comm]
  have inner0 : ∀ j : Fin 8, ∑ i, d j * (margin_transform (α := ℝ) i j
      * (Matrix.mulVec margin_transform v i - obs i)) = 0 := by
    intro j
    rw [← Finset.mul_sum, hv j, mul_zero]
  rw [Finset.sum_congr rfl fun j _ => inner0 j]
  simp

/-- The normal equations characterise least-squares minimisers (sufficiency). -/
lemma normal_eq_is_lstsq (obs : Fin 12 → ℝ) (v : Fin 8 → ℝ) (hv : normal_eq obs v) :
    is_lstsq obs v := by
  intro u
  rw [resSq_decomp obs u v, normal_eq_resid_orth obs v hv (u - v)]
  have hsq : 0 ≤ ∑ i, (Matrix.mulVec margin_transform (u - v) i) ^ 2 :=
    Finset.sum_nonneg fun i _ => sq_nonneg _
  linarith

/-- Two least-squares solutions have the same image under `margin_transform`
(the minimiser of a convex quadratic is unique up to the null space). -/
lemma lstsq_mulVec_eq (obs : Fin 12 → ℝ) (u v : Fin 8 → ℝ)
    (hu : is_lstsq obs u) (hv : is_lstsq obs v) :
    Matrix.mulVec margin_transform u = Matrix.mulVec margin_transform v := by
  have heq : resSq obs u = resSq obs v := le_antisymm (hu v) (hv u)
  set m : Fin 8 → ℝ := fun k => (u k + v k) / 2 with hm
  have hmpt : ∀ i, Matrix.mulVec margin_transform m i =
      (Matrix.mulVec margin_transform u i + Matrix.mulVec margin_transform v i) / 2 := by
    intro i
    have : m = (2⁻¹ : ℝ) • (u + v) := by
      funext k
      simp [hm, Pi.smul_apply, Pi.add_apply, smul_eq_mul]
      ring
    rw [this, Matrix.mulVec_smul, Matrix.mulVec_add]
    simp [Pi.smul_apply, Pi.add_apply, smul_eq_mul]
    ring
  have hresm : resSq obs m = (resSq obs u + resSq obs v) / 2
      - (1 / 4) * ∑ i, (Matrix.mulVec margin_transform u i
          - Matrix.mulVec margin_transform v i) ^ 2 := by
    unfold resSq
    have hterm : ∀ i : Fin 12, (Matrix.mulVec margin_transform m i - obs i) ^ 2 =
        ((Matrix.mulVec margin_transform u i - obs i) ^ 2
          + (Matrix.mulVec margin_transform v i - obs i) ^ 2) / 2
        - (1 / 4) * (Matrix.mulVec margin_transform u i
            - Matrix.mulVec margin_transform v i) ^ 2 := by
      intro i
      rw [hmpt i]
      ring
    rw [Finset.sum_congr rfl fun i _ => hterm i, Finset.sum_sub_distrib,
      ← Finset.sum_div, Finset.sum_add_distrib, ← Finset.mul_sum]
  have hle : resSq obs v ≤ resSq obs m := hv m
  have hsumle : ∑ i, (Matrix.mulVec margin_transform u i
      - Matrix.mulVec margin_transform v i) ^ 2 ≤ 0 := by
    rw [hresm, heq] at hle
    linarith
  have hzero : ∀ i ∈ Finset.univ, (Matrix.mulVec margin_transform u i
      - Matrix.mulVec margin_transform v i) ^ 2 = 0 := by
    rw [← Finset.sum_eq_zero_iff_of_nonneg fun i _ => sq_nonneg _]
    have hge : 0 ≤ ∑ i, (Matrix.mulVec margin_transform u i
        - Matrix.mulVec margin_transform v i) ^ 2 :=
      Finset.sum_nonneg fun i _ => sq_nonneg _
    linarith
  funext i
  have := hzero i (Finset.mem_univ i)
  have hdiff : Matrix.mulVec margin_transform u i - Matrix.mulVec margin_transform v i = 0 :=
    pow_eq_zero_iff (two_ne_zero) |>.mp this
  linarith

/-- Every member of the one-parameter family through a least-squares solution
is again a least-squares solution. -/
lemma lstsq_shift (obs : Fin 12 → ℝ) (v : Fin 8 → ℝ) (hv : is_lstsq obs v) (t : ℝ) :
    is_lstsq obs (fun k => v k + t * ns k) := by
  intro u
  rw [resSq_congr obs (fun k => v k + t * ns k) v (mulVec_margin_shift v t)]
  exact hv u

/-- The least-squares solution set through `v` is exactly the family
`v + t • ns`. -/
lemma lstsq_family (obs : Fin 12 → ℝ) (v : Fin 8 → ℝ) (hv : is_lstsq obs v)
    (u : Fin 8 → ℝ) :
    is_lstsq obs u ↔ ∃ t, ∀ k, u k = v k + t * ns k := by
  constructor
  · intro hu
    exact family_of_mulVec_eq u v (lstsq_mulVec_eq obs u v hu hv)
  · rintro ⟨t, ht⟩
    have : u = fun k => v k + t * ns k := funext ht
    rw [this]
    exact lstsq_shift obs v hv t

end MarginRecovery

namespace MarginRecovery

/-! ## The Gibbs inequality for the notebook's entropy function -/

lemma posSum_of_nonneg {n : ℕ} (v : Fin n → ℝ) (hv : ∀ k, 0 ≤ v k) :
    posSum v = ∑ k, v k := by
  unfold posSum
  refine Finset.sum_congr rfl fun k _ => ?_
  by_cases h : 0 < v k
  · rw [if_pos h]
  · rw [if_neg h]
    exact (le_antisymm (hv k) (not_lt.mp h)).symm ▸ rfl

/-- Strict Gibbs inequality: against a strictly positive distribution `b`, the
cross sum `∑ a·log b` is strictly below the entropy-style sum of `a` unless
`a = b` (both sum to one; `a` may touch zero, its zero entries contributing
nothing). -/
lemma sum_log_lt {n : ℕ} (a b : Fin n → ℝ) (hb : ∀ k, 0 < b k) (ha : ∀ k, 0 ≤ a k)
    (hsa : ∑ k, a k = 1) (hsb : ∑ k, b k = 1) (hne : a ≠ b) :
    ∑ k, a k * Real.log (b k) < ∑ k, (if 0 < a k then a k * Real.log (a k) else 0) := by
  have key : ∀ k, a k * Real.log (b k) ≤
      (if 0 < a k then a k * Real.log (a k) else 0) + (b k - a k) := by
    intro k
    by_cases h : 0 < a k
    · rw [if_pos h]
      have hba : 0 < b k / a k := div_pos (hb k) h
      have hlog := Real.log_le_sub_one_of_pos hba
      have hdiv : Real.log (b k / a k) = Real.log (b k) - Real.log (a k) :=
        Real.log_div (ne_of_gt (hb k)) (ne_of_gt h)
      have hmul := mul_le_mul_of_nonneg_left hlog (le_of_lt h)
      have hclear : a k * (b k / a k - 1) = b k - a k := by
        field_simp
      rw [hdiv] at hmul
      rw [hclear] at hmul
      linarith [hmul]
    · rw [if_neg h]
      have ha0 : a k = 0 := le_antisymm (not_lt.mp h) (ha k)
      rw [ha0]
      nlinarith [hb k]
  have strict : ∃ k0 : Fin n, a k0 * Real.log (b k0) <
      (if 0 < a k0 then a k0 * Real.log (a k0) else 0) + (b k0 - a k0) := by
    by_cases hall : ∀ k, 0 < a k
    · have hex : ∃ k0, a k0 ≠ b k0 := by
        by_contra hc
        push_neg at hc
        exact hne (funext hc)
      obtain ⟨k0, hk0⟩ := hex
      refine ⟨k0, ?_⟩
      rw [if_pos (hall k0)]
      have hba : 0 < b k0 / a k0 := div_pos (hb k0) (hall k0)
      have hne1 : b k0 / a k0 ≠ 1 := by
        intro hc
        exact hk0 ((div_eq_one_iff_eq (ne_of_gt (hall k0))).mp hc).symm
      have hlog := Real.log_lt_sub_one_of_pos hba hne1
      have hdiv : Real.log (b k0 / a k0) = Real.log (b k0) - Real.log (a k0) :=
        Real.log_div (ne_of_gt (hb k0)) (ne_of_gt (hall k0))
      have hmul := (mul_lt_mul_left (hall k0)).mpr hlog
      have hclear : a k0 * (b k0 / a k0 - 1) = b k0 - a k0 := by
        field_simp [ne_of_gt (hall k0)]
      rw [hdiv] at hmul
      rw [hclear] at hmul
      linarith [hmul]
    · push_neg at hall
      obtain ⟨k0, hk0⟩ := hall
      refine ⟨k0, ?_⟩
      have ha0 : a k0 = 0 := le_antisymm hk0 (ha k0)
      rw [if_neg (by rw [ha0]; exact lt_irrefl 0), ha0]
      nlinarith [hb k0]
  obtain ⟨k0, hk0⟩ := strict
  have hsum := Finset.sum_lt_sum (fun k _ => key k) ⟨k0, Finset.mem_univ k0, hk0⟩
  rw [Finset.sum_add_distrib, Finset.sum_sub_distrib, hsa, hsb] at hsum
  linarith [hsum]

/-- The core maximum-entropy comparison: if `v` is strictly positive, `w` is
non-negative with the same total mass, and `w` has the same `log v`-weighted
mass as `v` itself (the cross-entropy condition), then `w ≠ v` forces
`entropy w < entropy v`. -/
lemma entropy_lt {n : ℕ} (v w : Fin n → ℝ) (hv : ∀ k, 0 < v k) (hw : ∀ k, 0 ≤ w k)
    (hsum : ∑ k, w k = ∑ k, v k)
    (hcross : ∑ k, w k * Real.log (v k) = ∑ k, v k * Real.log (v k))
    (hne : w ≠ v) : entropy w < entropy v := by
  rcases Nat.eq_zero_or_pos n with h0 | hpos
  · exfalso
    apply hne
    funext k
    exact absurd k.isLt (by omega)
  have huniv : (Finset.univ : Finset (Fin n)).Nonempty := ⟨⟨0, hpos⟩, Finset.mem_univ _⟩
  have hS : 0 < ∑ k, v k := Finset.sum_pos (fun k _ => hv k) huniv
  have hSne : (∑ k, v k) ≠ 0 := ne_of_gt hS
  -- normalised distributions and their facts
  have hsb : ∑ k, v k / (∑ j, v j) = 1 := by
    rw [← Finset.sum_div, div_self hSne]
  have hsa : ∑ k, w k / (∑ j, v j) = 1 := by
    rw [← Finset.sum_div, hsum, div_self hSne]
  have hbpos : ∀ k, 0 < v k / (∑ j, v j) := fun k => div_pos (hv k) hS
  have hanneg : ∀ k, 0 ≤ w k / (∑ j, v j) := fun k => div_nonneg (hw k) (le_of_lt hS)
  have hane : (fun k => w k / (∑ j, v j)) ≠ (fun k => v k / (∑ j, v j)) := by
    intro hc
    apply hne
    funext k
    have h : w k / (∑ j, v j) = v k / (∑ j, v j) := congrFun hc k
    field_simp at h
    exact h
  -- the cross condition carries over to the normalised vectors
  have hA : ∑ k, (w k / (∑ j, v j)) * Real.log (v k / (∑ j, v j)) =
      (∑ k, w k * Real.log (v k)) / (∑ j, v j)
        - (∑ k, w k) * Real.log (∑ j, v j) / (∑ j, v j) := by
    have hterm : ∀ k, (w k / (∑ j, v j)) * Real.log (v k / (∑ j, v j)) =
        (w k * Real.log (v k)) / (∑ j, v j) - (w k * Real.log (∑ j, v j)) / (∑ j, v j) := by
      intro k
      rw [Real.log_div (ne_of_gt (hv k)) hSne]
      ring
    rw [Finset.sum_congr rfl fun k _ => hterm k, Finset.sum_sub_distrib,
      ← Finset.sum_div, ← Finset.sum_div, ← Finset.sum_mul]
  have hB : ∑ k, (v k / (∑ j, v j)) * Real.log (v k / (∑ j, v j)) =
      (∑ k, v k * Real.log (v k)) / (∑ j, v j)
        - (∑ k, v k) * Real.log (∑ j, v j) / (∑ j, v j) := by
    have hterm : ∀ k, (v k / (∑ j, v j)) * Real.log (v k / (∑ j, v j)) =
        (v k * Real.log (v k)) / (∑ j, v j) - (v k * Real.log (∑ j, v j)) / (∑ j, v j) := by
      intro k
      rw [Real.log_div (ne_of_gt (hv k)) hSne]
      ring
    rw [Finset.sum_congr rfl fun k _ => hterm k, Finset.sum_sub_distrib,
      ← Finset.sum_div, ← Finset.sum_div, ← Finset.sum_mul]
  have hmain := sum_log_lt (fun k => w k / (∑ j, v j)) (fun k => v k / (∑ j, v j))
    hbpos hanneg hsa hsb hane
  have hcross2 : ∑ k, (w k / (∑ j, v j)) * Real.log (v k / (∑ j, v j)) =
      ∑ k, (v k / (∑ j, v j)) * Real.log (v k / (∑ j, v j)) := by
    rw [hA, hB, hcross, hsum]
  rw [hcross2] at hmain
  -- translate both entropies into the normalised sums
  have hEv : entropy v = -((∑ k, (v k / (∑ j, v j)) * Real.log (v k / (∑ j, v j)))
      / Real.log 2) := by
    unfold entropy
    rw [posSum_of_nonneg v (fun k => (hv k).le)]
    have hterm : ∀ k, (if 0 < v k then (v k / ∑ j, v j) * Real.logb 2 (v k / ∑ j, v j) else 0)
        = ((v k / (∑ j, v j)) * Real.log (v k / (∑ j, v j))) / Real.log 2 := by
      intro k
      rw [if_pos (hv k), Real.logb]
      ring
    rw [Finset.sum_congr rfl fun k _ => hterm k, ← Finset.sum_div]
  have hEw : entropy w = -((∑ k, (if 0 < w k / (∑ j, v j) then
      (w k / (∑ j, v j)) * Real.log (w k / (∑ j, v j)) else 0)) / Real.log 2) := by
    unfold entropy
    rw [posSum_of_nonneg w hw, hsum]
    have hterm : ∀ k, (if 0 < w k then (w k / ∑ j, v j) * Real.logb 2 (w k / ∑ j, v j) else 0)
        = (if 0 < w k / (∑ j, v j) then
            (w k / (∑ j, v j)) * Real.log (w k / (∑ j, v j)) else 0) / Real.log 2 := by
      intro k
      by_cases h : 0 < w k
      · rw [if_pos h, if_pos (div_pos h hS), Real.logb]
        ring
      · have hw0 : w k = 0 := le_antisymm (not_lt.mp h) (hw k)
        have h2 : ¬ 0 < w k / (∑ j, v j) := by
          rw [hw0, zero_div]
          exact lt_irrefl 0
        rw [if_neg h, if_neg h2]
        simp
    rw [Finset.sum_congr rfl fun k _ => hterm k, ← Finset.sum_div]
  rw [hEw, hEv]
  have hL : 0 < Real.log 2 := Real.log_pos one_lt_two
  exact neg_lt_neg ((div_lt_div_iff_of_pos_right hL).mpr hmain)

end MarginRecovery

namespace MarginRecovery

/-! ## Maximum-entropy selection: existence and uniqueness from
log-orthogonality to the null direction -/

lemma ns_sum_zero : ∑ k, ns (α := ℝ) k = 0 := by
  rw [Fin.sum_univ_eight]
  norm_num [ns]

lemma shift_sum (v : Fin 8 → ℝ) (t : ℝ) :
    ∑ k, (v k + t * ns (α := ℝ) k) = ∑ k, v k := by
  rw [Finset.sum_add_distrib, ← Finset.mul_sum, ns_sum_zero, mul_zero, add_zero]

lemma shift_cross (v u : Fin 8 → ℝ) (t : ℝ) (h : ∀ k, u k = v k + t * ns k)
    (horth : log_orth v) :
    ∑ k, u k * Real.log (v k) = ∑ k, v k * Real.log (v k) := by
  have hterm : ∀ k : Fin 8, u k * Real.log (v k)
      = v k * Real.log (v k) + t * (ns (α := ℝ) k * Real.log (v k)) := by
    intro k
    rw [h k]
    ring
  rw [Finset.sum_congr rfl fun k _ => hterm k, Finset.sum_add_distrib, ← Finset.mul_sum,
    horth, mul_zero, add_zero]

/-- A strictly positive least-squares solution whose log-vector is orthogonal
to `ns` is the maximum-entropy selection, and it is the only one. -/
lemma select_maxent_of_log_orth (obs : Fin 12 → ℝ) (v : Fin 8 → ℝ)
    (hl : is_lstsq obs v) (hv : ∀ k, 0 < v k) (horth : log_orth v) :
    select_maxent obs v ∧ ∀ w, select_maxent obs w → w = v := by
  have hstrict : ∀ u, is_lstsq obs u → (∀ k, 0 ≤ u k) → u ≠ v → entropy u < entropy v := by
    intro u hu hunn hune
    obtain ⟨t, ht⟩ := (lstsq_family obs v hl u).mp hu
    refine entropy_lt v u hv hunn ?_ ?_ hune
    · calc ∑ k, u k = ∑ k, (v k + t * ns (α := ℝ) k) :=
            Finset.sum_congr rfl fun k _ => by rw [ht k]
        _ = ∑ k, v k := shift_sum v t
    · exact shift_cross v u t ht horth
  constructor
  · refine ⟨hl, fun k => (hv k).le, fun u hu hunn => ?_⟩
    by_cases he : u = v
    · rw [he]
    · exact (hstrict u hu hunn he).le
  · rintro w ⟨hwl, hwnn, hwmax⟩
    by_contra hne
    have h1 := hstrict w hwl hwnn hne
    have h2 := hwmax v hl fun k => (hv k).le
    linarith

/-- Exact observations make the generating vector a least-squares solution. -/
lemma is_lstsq_exact (v : Fin 8 → ℝ) : is_lstsq (Matrix.mulVec margin_transform v) v := by
  intro u
  have h0 : resSq (Matrix.mulVec margin_transform v) v = 0 := by
    unfold resSq
    refine Finset.sum_eq_zero fun i _ => ?_
    rw [sub_self]
    ring
  rw [h0]
  exact Finset.sum_nonneg fun i _ => sq_nonneg _

end MarginRecovery

namespace MarginRecovery

/-! ## The additive logit ground truth: positivity, its observations, and the
`p_vec` orthogonality invariant -/

lemma sigmoid_pos (x : ℝ) : 0 < sigmoid x := by
  unfold sigmoid
  positivity

lemma sigmoid_lt_one (x : ℝ) : sigmoid x < 1 := by
  unfold sigmoid
  have he : 0 < Real.exp (-x) := Real.exp_pos _
  rw [div_lt_one (by linarith)]
  linarith

/-- The defining identity of the logistic link: the log-odds of `sigmoid x`
are `x` itself. -/
lemma log_sigmoid_ratio (x : ℝ) :
    Real.log (sigmoid x) - Real.log (1 - sigmoid x) = x := by
  have he : 0 < Real.exp (-x) := Real.exp_pos _
  have hd : 0 < 1 + Real.exp (-x) := by linarith
  have h1 : 1 - sigmoid x = Real.exp (-x) / (1 + Real.exp (-x)) := by
    unfold sigmoid
    field_simp
  have h2 : Real.log (sigmoid x) = -Real.log (1 + Real.exp (-x)) := by
    unfold sigmoid
    rw [Real.log_div one_ne_zero (ne_of_gt hd), Real.log_one]
    ring
  have h3 : Real.log (1 - sigmoid x) = -x - Real.log (1 + Real.exp (-x)) := by
    rw [h1, Real.log_div (ne_of_gt he) (ne_of_gt hd), Real.log_exp]
  rw [h2, h3]
  ring

/-- A 0/1 mixture of `p` and `1 - p` is positive when `0 < p < 1`. -/
lemma mix_pos (c p : ℝ) (hc : c = 0 ∨ c = 1) (h1 : 0 < p) (h2 : p < 1) :
    0 < c * p + (1 - c) * (1 - p) := by
  rcases hc with h | h <;> rw [h] <;> nlinarith

lemma cellx1_01 : ∀ k, cellx1 k = 0 ∨ cellx1 k = 1 := by
  refine forall_fin_eight ?_ ?_ ?_ ?_ ?_ ?_ ?_ ?_ <;> norm_num [cellx1]

lemma cellx2_01 : ∀ k, cellx2 k = 0 ∨ cellx2 k = 1 := by
  refine forall_fin_eight ?_ ?_ ?_ ?_ ?_ ?_ ?_ ?_ <;> norm_num [cellx2]

lemma celly_01 : ∀ k, celly k = 0 ∨ celly k = 1 := by
  refine forall_fin_eight ?_ ?_ ?_ ?_ ?_ ?_ ?_ ?_ <;> norm_num [celly]

lemma ground_truth_pos (pX1 pX2 c0 b1 b2 : ℝ) (h1 : 0 < pX1) (h2 : pX1 < 1)
    (h3 : 0 < pX2) (h4 : pX2 < 1) :
    ∀ k, 0 < ground_truth pX1 pX2 c0 b1 b2 k := by
  intro k
  unfold ground_truth
  exact mul_pos
    (mul_pos (mix_pos _ _ (cellx1_01 k) h1 h2) (mix_pos _ _ (cellx2_01 k) h3 h4))
    (mix_pos _ _ (celly_01 k) (sigmoid_pos _) (sigmoid_lt_one _))

/-- The log of a ground-truth cell splits into the logs of its three factors. -/
lemma ground_truth_log_split (pX1 pX2 c0 b1 b2 : ℝ) (h1 : 0 < pX1) (h2 : pX1 < 1)
    (h3 : 0 < pX2) (h4 : pX2 < 1) (k : Fin 8) :
    Real.log (ground_truth pX1 pX2 c0 b1 b2 k)
      = Real.log (cellx1 k * pX1 + (1 - cellx1 k) * (1 - pX1))
        + Real.log (cellx2 k * pX2 + (1 - cellx2 k) * (1 - pX2))
        + Real.log (celly k * sigmoid (c0 + b1 * cellx1 k + b2 * cellx2 k)
            + (1 - celly k) * (1 - sigmoid (c0 + b1 * cellx1 k + b2 * cellx2 k))) := by
  have f1 := mix_pos _ _ (cellx1_01 k) h1 h2
  have f2 := mix_pos _ _ (cellx2_01 k) h3 h4
  have f3 := mix_pos (celly k) (sigmoid (c0 + b1 * cellx1 k + b2 * cellx2 k)) (celly_01 k)
    (sigmoid_pos _) (sigmoid_lt_one _)
  unfold ground_truth
  rw [Real.log_mul (ne_of_gt (mul_pos f1 f2)) (ne_of_gt f3),
    Real.log_mul (ne_of_gt f1) (ne_of_gt f2)]

/-- The notebook's `p_vec` check, in full generality: for every additive logit
ground truth, `sum(test_vec * log(proportion)) = 0`. -/
lemma ground_truth_log_orth (pX1 pX2 c0 b1 b2 : ℝ) (h1 : 0 < pX1) (h2 : pX1 < 1)
    (h3 : 0 < pX2) (h4 : pX2 < 1) :
    log_orth (ground_truth pX1 pX2 c0 b1 b2) := by
  unfold log_orth
  rw [Finset.sum_congr rfl fun k _ => by
    rw [ground_truth_log_split pX1 pX2 c0 b1 b2 h1 h2 h3 h4 k]]
  rw [Fin.sum_univ_eight]
  simp only [ns, cellx1, cellx2, celly, Matrix.cons_val_zero, Matrix.cons_val_one,
    Matrix.cons_val_two, Matrix.cons_val_three, Matrix.cons_val_four,
    Matrix.head_cons, Matrix.tail_cons, vec8_five, vec8_six, vec8_seven]
  norm_num
  have l1 := log_sigmoid_ratio c0
  have l2 := log_sigmoid_ratio (c0 + b1)
  have l3 := log_sigmoid_ratio (c0 + b2)
  have l4 := log_sigmoid_ratio (c0 + b1 + b2)
  ring_nf
  ring_nf at l1 l2 l3 l4
  linarith

end MarginRecovery

namespace MarginRecovery

lemma ground_truth_e0 (pX1 pX2 c0 b1 b2 : ℝ) :
    ground_truth pX1 pX2 c0 b1 b2 0 = (1 - pX1) * (1 - pX2) * (1 - sigmoid c0) := by
  simp [ground_truth, cellx1, cellx2, celly]

lemma ground_truth_e1 (pX1 pX2 c0 b1 b2 : ℝ) :
    ground_truth pX1 pX2 c0 b1 b2 1 = pX1 * (1 - pX2) * (1 - sigmoid (c0 + b1)) := by
  simp [ground_truth, cellx1, cellx2, celly]

lemma ground_truth_e2 (pX1 pX2 c0 b1 b2 : ℝ) :
    ground_truth pX1 pX2 c0 b1 b2 2 = (1 - pX1) * pX2 * (1 - sigmoid (c0 + b2)) := by
  simp [ground_truth, cellx1, cellx2, celly]

lemma ground_truth_e3 (pX1 pX2 c0 b1 b2 : ℝ) :
    ground_truth pX1 pX2 c0 b1 b2 3 = pX1 * pX2 * (1 - sigmoid (c0 + b1 + b2)) := by
  simp [ground_truth, cellx1, cellx2, celly]

lemma ground_truth_e4 (pX1 pX2 c0 b1 b2 : ℝ) :
    ground_truth pX1 pX2 c0 b1 b2 4 = (1 - pX1) * (1 - pX2) * sigmoid c0 := by
  simp [ground_truth, cellx1, cellx2, celly]

lemma ground_truth_e5 (pX1 pX2 c0 b1 b2 : ℝ) :
    ground_truth pX1 pX2 c0 b1 b2 5 = pX1 * (1 - pX2) * sigmoid (c0 + b1) := by
  simp [ground_truth, cellx1, cellx2, celly]

lemma ground_truth_e6 (pX1 pX2 c0 b1 b2 : ℝ) :
    ground_truth pX1 pX2 c0 b1 b2 6 = (1 - pX1) * pX2 * sigmoid (c0 + b2) := by
  simp [ground_truth, cellx1, cellx2, celly]

lemma ground_truth_e7 (pX1 pX2 c0 b1 b2 : ℝ) :
    ground_truth pX1 pX2 c0 b1 b2 7 = pX1 * pX2 * sigmoid (c0 + b1 + b2) := by
  simp [ground_truth, cellx1, cellx2, celly]

/-- Because the ground truth has product form in `(x1, x2)` (the independence
that `estimate_joint_xx` assumes), the observation vector the pipeline
assembles from the two experimenters' tables is exactly
`margin_transform %*% ground_truth`. -/
lemma pipeline_obs_ground_truth (pX1 pX2 c0 b1 b2 : ℝ) :
    pipeline_obs (ground_truth pX1 pX2 c0 b1 b2)
      = Matrix.mulVec margin_transform (ground_truth pX1 pX2 c0 b1 b2) := by
  funext i
  revert i
  refine forall_fin_twelve rfl rfl rfl rfl rfl rfl rfl rfl ?_ ?_ ?_ ?_
  · show (Matrix.mulVec margin_transform (ground_truth pX1 pX2 c0 b1 b2) 0
        + Matrix.mulVec margin_transform (ground_truth pX1 pX2 c0 b1 b2) 2)
      * (Matrix.mulVec margin_transform (ground_truth pX1 pX2 c0 b1 b2) 4
        + Matrix.mulVec margin_transform (ground_truth pX1 pX2 c0 b1 b2) 6)
      = Matrix.mulVec margin_transform (ground_truth pX1 pX2 c0 b1 b2) 8
    rw [margin_apply_0, margin_apply_2, margin_apply_4, margin_apply_6, margin_apply_8]
    simp only [ground_truth_e0, ground_truth_e1, ground_truth_e2, ground_truth_e3,
      ground_truth_e4, ground_truth_e5, ground_truth_e6, ground_truth_e7]
    ring
  · show (Matrix.mulVec margin_transform (ground_truth pX1 pX2 c0 b1 b2) 1
        + Matrix.mulVec margin_transform (ground_truth pX1 pX2 c0 b1 b2) 3)
      * (Matrix.mulVec margin_transform (ground_truth pX1 pX2 c0 b1 b2) 4
        + Matrix.mulVec margin_transform (ground_truth pX1 pX2 c0 b1 b2) 6)
      = Matrix.mulVec margin_transform (ground_truth pX1 pX2 c0 b1 b2) 9
    rw [margin_apply_1, margin_apply_3, margin_apply_4, margin_apply_6, margin_apply_9]
    simp only [ground_truth_e0, ground_truth_e1, ground_truth_e2, ground_truth_e3,
      ground_truth_e4, ground_truth_e5, ground_truth_e6, ground_truth_e7]
    ring
  · show (Matrix.mulVec margin_transform (ground_truth pX1 pX2 c0 b1 b2) 0
        + Matrix.mulVec margin_transform (ground_truth pX1 pX2 c0 b1 b2) 2)
      * (Matrix.mulVec margin_transform (ground_truth pX1 pX2 c0 b1 b2) 5
        + Matrix.mulVec margin_transform (ground_truth pX1 pX2 c0 b1 b2) 7)
      = Matrix.mulVec margin_transform (ground_truth pX1 pX2 c0 b1 b2) 10
    rw [margin_apply_0, margin_apply_2, margin_apply_5, margin_apply_7, margin_apply_10]
    simp only [ground_truth_e0, ground_truth_e1, ground_truth_e2, ground_truth_e3,
      ground_truth_e4, ground_truth_e5, ground_truth_e6, ground_truth_e7]
    ring
  · show (Matrix.mulVec margin_transform (ground_truth pX1 pX2 c0 b1 b2) 1
        + Matrix.mulVec margin_transform (ground_truth pX1 pX2 c0 b1 b2) 3)
      * (Matrix.mulVec margin_transform (ground_truth pX1 pX2 c0 b1 b2) 5
        + Matrix.mulVec margin_transform (ground_truth pX1 pX2 c0 b1 b2) 7)
      = Matrix.mulVec margin_transform (ground_truth pX1 pX2 c0 b1 b2) 11
    rw [margin_apply_1, margin_apply_3, margin_apply_5, margin_apply_7, margin_apply_11]
    simp only [ground_truth_e0, ground_truth_e1, ground_truth_e2, ground_truth_e3,
      ground_truth_e4, ground_truth_e5, ground_truth_e6, ground_truth_e7]
    ring

end MarginRecovery

namespace MarginRecovery

/-! ## Facts about the balanced example distribution -/

lemma v_balanced_pos : ∀ k, 0 < v_balanced k := by
  refine forall_fin_eight ?_ ?_ ?_ ?_ ?_ ?_ ?_ ?_ <;> norm_num [v_balanced]

lemma v_balanced_log_orth : log_orth v_balanced := by
  unfold log_orth
  rw [Fin.sum_univ_eight]
  simp only [ns, v_balanced, Matrix.cons_val_zero, Matrix.cons_val_one,
    Matrix.cons_val_two, Matrix.cons_val_three, Matrix.cons_val_four,
    Matrix.head_cons, Matrix.tail_cons, vec8_five, vec8_six, vec8_seven]
  have h4 : Real.log (4/15 : ℝ) = 2 * Real.log 2 - Real.log 15 := by
    rw [Real.log_div (by norm_num) (by norm_num),
      show (4:ℝ) = 2 ^ 2 by norm_num, Real.log_pow]
    push_cast
    ring
  have h2 : Real.log (2/15 : ℝ) = Real.log 2 - Real.log 15 :=
    Real.log_div (by norm_num) (by norm_num)
  have h1 : Real.log (1/15 : ℝ) = -Real.log 15 := by
    rw [Real.log_div one_ne_zero (by norm_num), Real.log_one]
    ring
  rw [h4, h2, h1]
  ring

lemma v_balanced_not_orth : ∑ k, v_balanced k * ns (α := ℝ) k ≠ 0 := by
  rw [Fin.sum_univ_eight]
  simp only [ns, v_balanced, Matrix.cons_val_zero, Matrix.cons_val_one,
    Matrix.cons_val_two, Matrix.cons_val_three, Matrix.cons_val_four,
    Matrix.head_cons, Matrix.tail_cons, vec8_five, vec8_six, vec8_seven]
  norm_num

/-! ## Claim theorems -/

/-- C1. For every synthetic ground-truth distribution over `(x1, x2, y)` in
which `x1` and `x2` are independent and `P[y=TRUE] = sigmoid(c0 + b1*x1 +
b2*x2)` (additive, interaction-free logit model), the full pipeline —
independence-based joint estimate of the explanatory marginals, observation
assembly, least-squares solve, null-space family, maximum-entropy selection —
returns exactly the ground-truth distribution from its 12 marginal
observations alone: the ground truth is the maximum-entropy selection for the
assembled observations, and it is the only one. -/
theorem maxent_recovers_additive_logit_truth (pX1 pX2 c0 b1 b2 : ℝ)
    (h1 : 0 < pX1) (h2 : pX1 < 1) (h3 : 0 < pX2) (h4 : pX2 < 1) :
    select_maxent (pipeline_obs (ground_truth pX1 pX2 c0 b1 b2))
        (ground_truth pX1 pX2 c0 b1 b2)
      ∧ ∀ w, select_maxent (pipeline_obs (ground_truth pX1 pX2 c0 b1 b2)) w
          → w = ground_truth pX1 pX2 c0 b1 b2 := by
  rw [pipeline_obs_ground_truth]
  exact select_maxent_of_log_orth _ _ (is_lstsq_exact _)
    (ground_truth_pos _ _ _ _ _ h1 h2 h3 h4) (ground_truth_log_orth _ _ _ _ _ h1 h2 h3 h4)

/-- Witness for C1 at the concrete model `pX1 = pX2 = 1/2`, `c0 = b1 = b2 = 0`. -/
theorem maxent_recovers_additive_logit_truth_witness :
    (0:ℝ) < 1/2 ∧ (1/2:ℝ) < 1 ∧
      (select_maxent (pipeline_obs (ground_truth (1/2) (1/2) 0 0 0))
          (ground_truth (1/2) (1/2) 0 0 0)
        ∧ ∀ w, select_maxent (pipeline_obs (ground_truth (1/2) (1/2) 0 0 0)) w
            → w = ground_truth (1/2) (1/2) 0 0 0) :=
  ⟨by norm_num, by norm_num,
    maxent_recovers_additive_logit_truth (1/2) (1/2) 0 0 0 (by norm_num) (by norm_num)
      (by norm_num) (by norm_num)⟩

/-- C3 (counterexample). The claim "the maximum-entropy point is the point of
the feasible family orthogonal to `ns`" fails when orthogonality is read of
the point itself: for the observations generated by `v_balanced`, the
maximum-entropy selection exists, is unique, equals `v_balanced` — and
`v_balanced` is not orthogonal to `ns` (its inner product with `ns` is
`1/15`). -/
theorem maxent_point_not_orthogonal_to_ns :
    select_maxent (Matrix.mulVec margin_transform v_balanced) v_balanced
      ∧ (∀ w, select_maxent (Matrix.mulVec margin_transform v_balanced) w → w = v_balanced)
      ∧ ∑ k, v_balanced k * ns (α := ℝ) k ≠ 0 := by
  have h := select_maxent_of_log_orth (Matrix.mulVec margin_transform v_balanced)
    v_balanced (is_lstsq_exact v_balanced) v_balanced_pos v_balanced_log_orth
  exact ⟨h.1, h.2, v_balanced_not_orth⟩

/-- C3 (amended). What is true, and what the notebook's `p_vec` check actually
states, is orthogonality of the entrywise logarithm: a strictly positive
member `v` of the feasible family with `∑ ns·log v = 0` is the (unique)
maximum-entropy selection; it is the unique strictly positive family member
whose log-vector is orthogonal to `ns`; and every additive logit ground truth
satisfies this no-interaction constraint. -/
theorem maxent_unique_log_orth_point (v : Fin 8 → ℝ) (hv : ∀ k, 0 < v k)
    (horth : log_orth v) :
    select_maxent (Matrix.mulVec margin_transform v) v
      ∧ (∀ w, select_maxent (Matrix.mulVec margin_transform v) w → w = v)
      ∧ (∀ w, Matrix.mulVec margin_transform w = Matrix.mulVec margin_transform v →
          (∀ k, 0 < w k) → log_orth w → w = v)
      ∧ (∀ pX1 pX2 c0 b1 b2 : ℝ, 0 < pX1 → pX1 < 1 → 0 < pX2 → pX2 < 1 →
          log_orth (ground_truth pX1 pX2 c0 b1 b2)) := by
  have hmain := select_maxent_of_log_orth (Matrix.mulVec margin_transform v) v
    (is_lstsq_exact v) hv horth
  refine ⟨hmain.1, hmain.2, ?_, ?_⟩
  · intro w hw hwpos hworth
    have hw' := select_maxent_of_log_orth (Matrix.mulVec margin_transform w) w
      (is_lstsq_exact w) hwpos hworth
    exact hmain.2 w (hw ▸ hw'.1)
  · intro pX1 pX2 c0 b1 b2 h1 h2 h3 h4
    exact ground_truth_log_orth pX1 pX2 c0 b1 b2 h1 h2 h3 h4

/-- Witness for the amended C3 at the concrete input `v_balanced`. -/
theorem maxent_unique_log_orth_point_witness :
    (∀ k, 0 < v_balanced k) ∧ log_orth v_balanced ∧
      (select_maxent (Matrix.mulVec margin_transform v_balanced) v_balanced
        ∧ (∀ w, select_maxent (Matrix.mulVec margin_transform v_balanced) w → w = v_balanced)
        ∧ (∀ w, Matrix.mulVec margin_transform w = Matrix.mulVec margin_transform v_balanced →
            (∀ k, 0 < w k) → log_orth w → w = v_balanced)
        ∧ (∀ pX1 pX2 c0 b1 b2 : ℝ, 0 < pX1 → pX1 < 1 → 0 < pX2 → pX2 < 1 →
            log_orth (ground_truth pX1 pX2 c0 b1 b2))) :=
  ⟨v_balanced_pos, v_balanced_log_orth,
    maxent_unique_log_orth_point v_balanced v_balanced_pos v_balanced_log_orth⟩

/-- C4. `estimate_joint_xx` is exactly an outer product, and its four entries
sum to 1 whenever both marginals sum to 1. -/
theorem estimate_joint_xx_outer_product (p q : Fin 2 → ℝ) :
    (∀ i j, estimate_joint_xx p q i j = p i * q j)
      ∧ ((∑ i, p i) = 1 → (∑ j, q j) = 1 → ∑ i, ∑ j, estimate_joint_xx p q i j = 1) := by
  refine ⟨fun i j => rfl, fun hp hq => ?_⟩
  rw [Fin.sum_univ_two] at hp hq
  simp only [estimate_joint_xx, Fin.sum_univ_two]
  linear_combination (q 0 + q 1) * hp + hq

/-- C5. The notebook's normalised null-space vector `ns` satisfies
`margin_transform %*% ns = 0` exactly (hence within `1e-8`), it is non-zero,
and the null space of `margin_transform` is exactly the 1-dimensional span of
`ns` (so the 12×8 matrix has rank 7). -/
theorem null_space_basis_spans_kernel :
    Matrix.mulVec (margin_transform (α := ℝ)) (ns (α := ℝ)) = 0
      ∧ ns (α := ℝ) ≠ 0
      ∧ ∀ v : Fin 8 → ℝ, Matrix.mulVec margin_transform v = 0 → v = fun k => v 0 * ns k := by
  refine ⟨mulVec_margin_ns, ?_, null_space_char⟩
  intro hc
  have h0 := congrFun hc 0
  norm_num [ns] at h0

/-- C8. The entries of `ns` sum to zero, so moving along the one-parameter
solution family `v0 + z·ns` never changes the total sum of the candidate
vector. -/
theorem ns_sum_zero_normalization_invariant :
    (∑ k, ns (α := ℝ) k = 0)
      ∧ ∀ (v0 : Fin 8 → ℝ) (z : ℝ), ∑ k, (v0 k + z * ns k) = ∑ k, v0 k :=
  ⟨ns_sum_zero, fun v0 z => shift_sum v0 z⟩

end MarginRecovery

namespace MarginRecovery

/-- C6 (the interval endpoints are modelled from the spec, see `z_lo`/`z_hi`).
The interval `[z_lo v0, z_hi v0]` is tight: at either endpoint at least one
entry of `v0 + z·ns` equals 0 exactly, every `z` in the closed interval keeps
all entries non-negative, and every `z` strictly inside makes all entries
strictly positive. -/
theorem feasible_z_interval_tight (v0 : Fin 8 → ℝ) :
    (∃ k, v0 k + z_lo v0 * ns (α := ℝ) k = 0)
      ∧ (∃ k, v0 k + z_hi v0 * ns (α := ℝ) k = 0)
      ∧ (∀ z, z_lo v0 ≤ z → z ≤ z_hi v0 → ∀ k, 0 ≤ v0 k + z * ns k)
      ∧ (∀ z, z_lo v0 < z → z < z_hi v0 → ∀ k, 0 < v0 k + z * ns k) := by
  have hns0 : ns (α := ℝ) 0 = 1 := rfl
  have hns1 : ns (α := ℝ) 1 = -1 := rfl
  have hns2 : ns (α := ℝ) 2 = -1 := rfl
  have hns3 : ns (α := ℝ) 3 = 1 := rfl
  have hns4 : ns (α := ℝ) 4 = -1 := rfl
  have hns5 : ns (α := ℝ) 5 = 1 := rfl
  have hns6 : ns (α := ℝ) 6 = 1 := rfl
  have hns7 : ns (α := ℝ) 7 = -1 := rfl
  refine ⟨?_, ?_, ?_, ?_⟩
  · unfold z_lo
    rcases max_choice (max (-v0 0) (-v0 3)) (max (-v0 5) (-v0 6)) with h | h <;> rw [h]
    · rcases max_choice (-v0 0) (-v0 3) with h' | h' <;> rw [h']
      · exact ⟨0, by rw [hns0]; ring⟩
      · exact ⟨3, by rw [hns3]; ring⟩
    · rcases max_choice (-v0 5) (-v0 6) with h' | h' <;> rw [h']
      · exact ⟨5, by rw [hns5]; ring⟩
      · exact ⟨6, by rw [hns6]; ring⟩
  · unfold z_hi
    rcases min_choice (min (v0 1) (v0 4)) (min (v0 2) (v0 7)) with h | h <;> rw [h]
    · rcases min_choice (v0 1) (v0 4) with h' | h' <;> rw [h']
      · exact ⟨1, by rw [hns1]; ring⟩
      · exact ⟨4, by rw [hns4]; ring⟩
    · rcases min_choice (v0 2) (v0 7) with h' | h' <;> rw [h']
      · exact ⟨2, by rw [hns2]; ring⟩
      · exact ⟨7, by rw [hns7]; ring⟩
  · intro z hlo hhi
    unfold z_lo at hlo
    unfold z_hi at hhi
    rw [max_le_iff, max_le_iff, max_le_iff] at hlo
    rw [le_min_iff, le_min_iff, le_min_iff] at hhi
    obtain ⟨⟨ha0, ha3⟩, ha5, ha6⟩ := hlo
    obtain ⟨⟨hb1, hb4⟩, hb2, hb7⟩ := hhi
    refine forall_fin_eight ?_ ?_ ?_ ?_ ?_ ?_ ?_ ?_
    · rw [hns0]; linarith
    · rw [hns1]; linarith
    · rw [hns2]; linarith
    · rw [hns3]; linarith
    · rw [hns4]; linarith
    · rw [hns5]; linarith
    · rw [hns6]; linarith
    · rw [hns7]; linarith
  · intro z hlo hhi
    unfold z_lo at hlo
    unfold z_hi at hhi
    rw [max_lt_iff, max_lt_iff, max_lt_iff] at hlo
    rw [lt_min_iff, lt_min_iff, lt_min_iff] at hhi
    obtain ⟨⟨ha0, ha3⟩, ha5, ha6⟩ := hlo
    obtain ⟨⟨hb1, hb4⟩, hb2, hb7⟩ := hhi
    refine forall_fin_eight ?_ ?_ ?_ ?_ ?_ ?_ ?_ ?_
    · rw [hns0]; linarith
    · rw [hns1]; linarith
    · rw [hns2]; linarith
    · rw [hns3]; linarith
    · rw [hns4]; linarith
    · rw [hns5]; linarith
    · rw [hns6]; linarith
    · rw [hns7]; linarith

/-- C9. The notebook's entropy is invariant under positive scaling: the
positive-entry filter, the normalisation and the `log2`-sum all commute with
multiplying the input by `c > 0`. -/
theorem entropy_scale_invariant {n : ℕ} (v : Fin n → ℝ) (c : ℝ) (k0 : Fin n)
    (hc : 0 < c) (hk : 0 < v k0) :
    entropy (fun k => c * v k) = entropy v := by
  have hps : posSum (fun k => c * v k) = c * posSum v := by
    unfold posSum
    rw [Finset.mul_sum]
    refine Finset.sum_congr rfl fun k _ => ?_
    by_cases h : 0 < v k
    · rw [if_pos h, if_pos (mul_pos hc h)]
    · rw [if_neg h, if_neg (fun hcv => by nlinarith [not_lt.mp h, hc, show 0 < c * v k from hcv]), mul_zero]
  unfold entropy
  rw [hps]
  congr 1
  refine Finset.sum_congr rfl fun k _ => ?_
  by_cases h : 0 < v k
  · rw [if_pos h, if_pos (mul_pos hc h), mul_div_mul_left _ _ (ne_of_gt hc)]
  · rw [if_neg h, if_neg (fun hcv => by nlinarith [not_lt.mp h, hc, show 0 < c * v k from hcv])]

/-- Witness for C9 at `n = 1`, `v = ![1]`, `c = 2`, positive entry at index 0. -/
theorem entropy_scale_invariant_witness :
    (0:ℝ) < 2 ∧ (0:ℝ) < (![1] : Fin 1 → ℝ) 0
      ∧ entropy (fun k => 2 * (![1] : Fin 1 → ℝ) k) = entropy (![1] : Fin 1 → ℝ) :=
  ⟨by norm_num, by norm_num,
    entropy_scale_invariant (![1] : Fin 1 → ℝ) 2 0 (by norm_num) (by norm_num)⟩

end MarginRecovery

namespace PermDist

lemma f_succ (n : ℕ) : f (n + 1) = f n + 2 * ∑ a ∈ Finset.range n, (n - a) := by
  unfold f
  rw [Finset.sum_range_succ]
  have hinner : ∀ a ∈ Finset.range n,
      (∑ b ∈ Finset.range (n + 1), if b ≠ a then ((b : ℤ) - (a : ℤ)).natAbs else 0)
        = (∑ b ∈ Finset.range n, if b ≠ a then ((b : ℤ) - (a : ℤ)).natAbs else 0)
          + (n - a) := by
    intro a ha
    have ha' : a < n := Finset.mem_range.mp ha
    rw [Finset.sum_range_succ]
    congr 1
    rw [if_pos (by omega : n ≠ a), ← Nat.cast_sub (le_of_lt ha'), Int.natAbs_ofNat]
  have hlast : (∑ b ∈ Finset.range (n + 1), if b ≠ n then ((b : ℤ) - (n : ℤ)).natAbs else 0)
      = ∑ b ∈ Finset.range n, (n - b) := by
    rw [Finset.sum_range_succ, if_neg (by simp), add_zero]
    refine Finset.sum_congr rfl fun b hb => ?_
    have hb' : b < n := Finset.mem_range.mp hb
    rw [if_pos (by omega : b ≠ n),
      show (b : ℤ) - (n : ℤ) = -(((n - b : ℕ) : ℤ)) by rw [Nat.cast_sub (le_of_lt hb')]; ring,
      Int.natAbs_neg, Int.natAbs_ofNat]
  rw [Finset.sum_congr rfl hinner, hlast, Finset.sum_add_distrib]
  ring

lemma two_mul_sum_range_sub (n : ℕ) :
    2 * ∑ a ∈ Finset.range n, (n - a) = n * (n + 1) := by
  induction n with
  | zero => rfl
  | succ m ih =>
    rw [Finset.sum_range_succ]
    have hstep : ∑ a ∈ Finset.range m, (m + 1 - a) = (∑ a ∈ Finset.range m, (m - a)) + m := by
      rw [Finset.sum_congr rfl fun a ha =>
        show m + 1 - a = (m - a) + 1 by
          have := Finset.mem_range.mp ha
          omega]
      rw [Finset.sum_add_distrib, Finset.sum_const, Finset.card_range, smul_eq_mul, mul_one]
    rw [hstep]
    have h2 : 2 * ∑ a ∈ Finset.range m, (m - a) = m * (m + 1) := ih
    ring_nf
    ring_nf at h2
    omega

/-- C10. The double sum `f(n) = Σ_{a≠b<n} |b−a|` equals `n³/3 − n/3` for every
natural `n`, and agrees everywhere with the polynomial `g` the notebook
recovers by regression. -/
theorem f_eq_cubic_closed_form (n : ℕ) :
    ((f n : ℚ) = ((n : ℚ) ^ 3 - (n : ℚ)) / 3) ∧ ((f n : ℚ) = g (n : ℚ)) := by
  have key : ∀ m : ℕ, (f m : ℚ) = ((m : ℚ) ^ 3 - (m : ℚ)) / 3 := by
    intro m
    induction m with
    | zero => simp [f]
    | succ p ih =>
      have hGauss : ((2 * ∑ a ∈ Finset.range p, (p - a) : ℕ) : ℚ) = (p : ℚ) * ((p : ℚ) + 1) := by
        exact_mod_cast congrArg (fun t : ℕ => (t : ℚ)) (two_mul_sum_range_sub p)
      rw [f_succ]
      push_cast
      push_cast at hGauss
      linear_combination ih + hGauss
  refine ⟨key n, ?_⟩
  have hg : g (n : ℚ) = ((n : ℚ) ^ 3 - (n : ℚ)) / 3 := by
    unfold g
    ring
  rw [key n, hg]

end PermDist

namespace MarginRecovery

/-! ## Row expansions for the exact least-squares solve matrix -/

lemma pinv_apply_0 (r : Fin 12 → ℚ) :
    Matrix.mulVec lsq_pinv r 0 = 7/24 * r 0 - 1/12 * r 1 - 1/12 * r 2 + 1/24 * r 3 + 7/24 * r 4 - 1/12 * r 5 - 1/12 * r 6 + 1/24 * r 7 + 7/24 * r 8 - 1/12 * r 9 - 1/12 * r 10 + 1/24 * r 11 := by
  have h : Matrix.mulVec lsq_pinv r 0 = 7/24 * r 0 + (-1/12 * r 1 + (-1/12 * r 2 + (1/24 * r 3 + (7/24 * r 4 + (-1/12 * r 5 + (-1/12 * r 6 + (1/24 * r 7 + (7/24 * r 8 + (-1/12 * r 9 + (-1/12 * r 10 + (1/24 * r 11 + (0)))))))))))) := rfl
  rw [h]; ring

lemma pinv_apply_1 (r : Fin 12 → ℚ) :
    Matrix.mulVec lsq_pinv r 1 = - 1/12 * r 0 + 7/24 * r 1 + 1/24 * r 2 - 1/12 * r 3 + 7/24 * r 4 - 1/12 * r 5 - 1/12 * r 6 + 1/24 * r 7 - 1/12 * r 8 + 7/24 * r 9 + 1/24 * r 10 - 1/12 * r 11 := by
  have h : Matrix.mulVec lsq_pinv r 1 = -1/12 * r 0 + (7/24 * r 1 + (1/24 * r 2 + (-1/12 * r 3 + (7/24 * r 4 + (-1/12 * r 5 + (-1/12 * r 6 + (1/24 * r 7 + (-1/12 * r 8 + (7/24 * r 9 + (1/24 * r 10 + (-1/12 * r 11 + (0)))))))))))) := rfl
  rw [h]; ring

lemma pinv_apply_2 (r : Fin 12 → ℚ) :
    Matrix.mulVec lsq_pinv r 2 = 7/24 * r 0 - 1/12 * r 1 - 1/12 * r 2 + 1/24 * r 3 - 1/12 * r 4 + 7/24 * r 5 + 1/24 * r 6 - 1/12 * r 7 - 1/12 * r 8 + 1/24 * r 9 + 7/24 * r 10 - 1/12 * r 11 := by
  have h : Matrix.mulVec lsq_pinv r 2 = 7/24 * r 0 + (-1/12 * r 1 + (-1/12 * r 2 + (1/24 * r 3 + (-1/12 * r 4 + (7/24 * r 5 + (1/24 * r 6 + (-1/12 * r 7 + (-1/12 * r 8 + (1/24 * r 9 + (7/24 * r 10 + (-1/12 * r 11 + (0)))))))))))) := rfl
  rw [h]; ring

lemma pinv_apply_3 (r : Fin 12 → ℚ) :
    Matrix.mulVec lsq_pinv r 3 = - 1/12 * r 0 + 7/24 * r 1 + 1/24 * r 2 - 1/12 * r 3 - 1/12 * r 4 + 7/24 * r 5 + 1/24 * r 6 - 1/12 * r 7 + 1/24 * r 8 - 1/12 * r 9 - 1/12 * r 10 + 7/24 * r 11 := by
  have h : Matrix.mulVec lsq_pinv r 3 = -1/12 * r 0 + (7/24 * r 1 + (1/24 * r 2 + (-1/12 * r 3 + (-1/12 * r 4 + (7/24 * r 5 + (1/24 * r 6 + (-1/12 * r 7 + (1/24 * r 8 + (-1/12 * r 9 + (-1/12 * r 10 + (7/24 * r 11 + (0)))))))))))) := rfl
  rw [h]; ring

lemma pinv_apply_4 (r : Fin 12 → ℚ) :
    Matrix.mulVec lsq_pinv r 4 = - 1/12 * r 0 + 1/24 * r 1 + 7/24 * r 2 - 1/12 * r 3 - 1/12 * r 4 + 1/24 * r 5 + 7/24 * r 6 - 1/12 * r 7 + 7/24 * r 8 - 1/12 * r 9 - 1/12 * r 10 + 1/24 * r 11 := by
  have h : Matrix.mulVec lsq_pinv r 4 = -1/12 * r 0 + (1/24 * r 1 + (7/24 * r 2 + (-1/12 * r 3 + (-1/12 * r 4 + (1/24 * r 5 + (7/24 * r 6 + (-1/12 * r 7 + (7/24 * r 8 + (-1/12 * r 9 + (-1/12 * r 10 + (1/24 * r 11 + (0)))))))))))) := rfl
  rw [h]; ring

lemma pinv_apply_5 (r : Fin 12 → ℚ) :
    Matrix.mulVec lsq_pinv r 5 = 1/24 * r 0 - 1/12 * r 1 - 1/12 * r 2 + 7/24 * r 3 - 1/12 * r 4 + 1/24 * r 5 + 7/24 * r 6 - 1/12 * r 7 - 1/12 * r 8 + 7/24 * r 9 + 1/24 * r 10 - 1/12 * r 11 := by
  have h : Matrix.mulVec lsq_pinv r 5 = 1/24 * r 0 + (-1/12 * r 1 + (-1/12 * r 2 + (7/24 * r 3 + (-1/12 * r 4 + (1/24 * r 5 + (7/24 * r 6 + (-1/12 * r 7 + (-1/12 * r 8 + (7/24 * r 9 + (1/24 * r 10 + (-1/12 * r 11 + (0)))))))))))) := rfl
  rw [h]; ring

lemma pinv_apply_6 (r : Fin 12 → ℚ) :
    Matrix.mulVec lsq_pinv r 6 = - 1/12 * r 0 + 1/24 * r 1 + 7/24 * r 2 - 1/12 * r 3 + 1/24 * r 4 - 1/12 * r 5 - 1/12 * r 6 + 7/24 * r 7 - 1/12 * r 8 + 1/24 * r 9 + 7/24 * r 10 - 1/12 * r 11 := by
  have h : Matrix.mulVec lsq_pinv r 6 = -1/12 * r 0 + (1/24 * r 1 + (7/24 * r 2 + (-1/12 * r 3 + (1/24 * r 4 + (-1/12 * r 5 + (-1/12 * r 6 + (7/24 * r 7 + (-1/12 * r 8 + (1/24 * r 9 + (7/24 * r 10 + (-1/12 * r 11 + (0)))))))))))) := rfl
  rw [h]; ring

lemma pinv_apply_7 (r : Fin 12 → ℚ) :
    Matrix.mulVec lsq_pinv r 7 = 1/24 * r 0 - 1/12 * r 1 - 1/12 * r 2 + 7/24 * r 3 + 1/24 * r 4 - 1/12 * r 5 - 1/12 * r 6 + 7/24 * r 7 + 1/24 * r 8 - 1/12 * r 9 - 1/12 * r 10 + 7/24 * r 11 := by
  have h : Matrix.mulVec lsq_pinv r 7 = 1/24 * r 0 + (-1/12 * r 1 + (-1/12 * r 2 + (7/24 * r 3 + (1/24 * r 4 + (-1/12 * r 5 + (-1/12 * r 6 + (7/24 * r 7 + (1/24 * r 8 + (-1/12 * r 9 + (-1/12 * r 10 + (7/24 * r 11 + (0)))))))))))) := rfl
  rw [h]; ring

end MarginRecovery

namespace MarginRecovery

/-- The exact solve returns, for every observation vector, a solution of the
normal equations for `margin_transform`. -/
lemma pinv_normal_eq (obs : Fin 12 → ℚ) :
    ∀ j, ∑ i, margin_transform (α := ℚ) i j
        * (Matrix.mulVec margin_transform (Matrix.mulVec lsq_pinv obs) i - obs i) = 0 := by
  refine forall_fin_eight ?_ ?_ ?_ ?_ ?_ ?_ ?_ ?_ <;>
    · first
        | rw [margin_col_0 (fun i =>
            Matrix.mulVec margin_transform (Matrix.mulVec lsq_pinv obs) i - obs i)]
        | rw [margin_col_1 (fun i =>
            Matrix.mulVec margin_transform (Matrix.mulVec lsq_pinv obs) i - obs i)]
        | rw [margin_col_2 (fun i =>
            Matrix.mulVec margin_transform (Matrix.mulVec lsq_pinv obs) i - obs i)]
        | rw [margin_col_3 (fun i =>
            Matrix.mulVec margin_transform (Matrix.mulVec lsq_pinv obs) i - obs i)]
        | rw [margin_col_4 (fun i =>
            Matrix.mulVec margin_transform (Matrix.mulVec lsq_pinv obs) i - obs i)]
        | rw [margin_col_5 (fun i =>
            Matrix.mulVec margin_transform (Matrix.mulVec lsq_pinv obs) i - obs i)]
        | rw [margin_col_6 (fun i =>
            Matrix.mulVec margin_transform (Matrix.mulVec lsq_pinv obs) i - obs i)]
        | rw [margin_col_7 (fun i =>
            Matrix.mulVec margin_transform (Matrix.mulVec lsq_pinv obs) i - obs i)]
      simp only [margin_apply_0, margin_apply_1, margin_apply_2, margin_apply_3,
        margin_apply_4, margin_apply_5, margin_apply_6, margin_apply_7, margin_apply_8,
        margin_apply_9, margin_apply_10, margin_apply_11, pinv_apply_0, pinv_apply_1,
        pinv_apply_2, pinv_apply_3, pinv_apply_4, pinv_apply_5, pinv_apply_6, pinv_apply_7]
      ring

/-- C7 (the engine is modelled from the spec, see `solve_linear`). Whenever the
assembled observations are inconsistent — the least-squares residual reaches
the `1e-6` tolerance — the engine reports `InconsistentObservations` and no
point estimate; whenever it does return a vector, the input was consistent and
the vector solves the normal equations (a genuine least-squares solution, not
a partial result). A concrete inconsistent pair (`d1` implying `P(x1=0)=0.5`
against an `x1/x2` table implying `P(x1=0)=0.5` but a `y`-marginal clash with
`d2`) is rejected. -/
theorem inconsistent_observations_reported :
    (∀ obs : Fin 12 → ℚ, ¬ solve_residual_sq obs < (1/1000000 : ℚ) ^ 2 →
        solve_linear obs = Except.error EngineError.InconsistentObservations)
      ∧ (∀ (obs : Fin 12 → ℚ) (v : Fin 8 → ℚ), solve_linear obs = Except.ok v →
          solve_residual_sq obs < (1/1000000 : ℚ) ^ 2 ∧
            ∀ j, ∑ i, margin_transform (α := ℚ) i j
                * (Matrix.mulVec margin_transform v i - obs i) = 0)
      ∧ solve_linear (assemble_observations (![3/10, 1/5, 1/5, 3/10])
            (![517616/10000000, 7969046/10000000, 1482384/10000000, 30954/10000000])
            (estimate_joint_xx (aggregate_x1 ![3/10, 1/5, 1/5, 3/10])
              (aggregate_x2 ![517616/10000000, 7969046/10000000, 1482384/10000000,
                30954/10000000])))
          = Except.error EngineError.InconsistentObservations := by
  refine ⟨?_, ?_, ?_⟩
  · intro obs h
    unfold solve_linear
    rw [if_neg h]
  · intro obs v hok
    unfold solve_linear at hok
    by_cases h : solve_residual_sq obs < (1/1000000 : ℚ) ^ 2
    · rw [if_pos h] at hok
      injection hok with hv
      subst hv
      exact ⟨h, pinv_normal_eq obs⟩
    · rw [if_neg h] at hok
      exact absurd hok (by simp)
  · have hval : solve_residual_sq (assemble_observations (![3/10, 1/5, 1/5, 3/10])
        (![517616/10000000, 7969046/10000000, 1482384/10000000, 30954/10000000])
        (estimate_joint_xx (aggregate_x1 ![3/10, 1/5, 1/5, 3/10])
          (aggregate_x2 ![517616/10000000, 7969046/10000000, 1482384/10000000,
            30954/10000000])))
        = 3039202975561/50000000000000 := by
      unfold solve_residual_sq
      rw [sum_univ_twelve]
      simp only [margin_apply_0, margin_apply_1, margin_apply_2, margin_apply_3,
        margin_apply_4, margin_apply_5, margin_apply_6, margin_apply_7, margin_apply_8,
        margin_apply_9, margin_apply_10, margin_apply_11, pinv_apply_0, pinv_apply_1,
        pinv_apply_2, pinv_apply_3, pinv_apply_4, pinv_apply_5, pinv_apply_6, pinv_apply_7,
        assemble_observations, estimate_joint_xx, aggregate_x1, aggregate_x2]
      norm_num [Matrix.cons_val_zero, Matrix.cons_val_one, Matrix.cons_val_two,
        Matrix.cons_val_three, Matrix.head_cons, Matrix.tail_cons]
    unfold solve_linear
    rw [if_neg (by rw [hval]; norm_num)]

end MarginRecovery

namespace MarginRecovery

/-! ## The worked example: exact bracketing of the maximum-entropy point -/

lemma vp_example_e0 : vp_example 0 = 7099293/80000000 := rfl

lemma vp_example_e1 : vp_example 1 = -2958367/80000000 := rfl

lemma vp_example_e2 : vp_example 2 = 41705013/80000000 := rfl

lemma vp_example_e3 : vp_example 3 = 22047353/80000000 := rfl

lemma vp_example_e4 : vp_example 4 = 4100707/80000000 := rfl

lemma vp_example_e5 : vp_example 5 = 7758367/80000000 := rfl

lemma vp_example_e6 : vp_example 6 = 3094987/80000000 := rfl

lemma vp_example_e7 : vp_example 7 = -2847353/80000000 := rfl

lemma maxent_target_e0 : maxent_target 0 = 5034/100000 := rfl

lemma maxent_target_e1 : maxent_target 1 = 142/100000 := rfl

lemma maxent_target_e2 : maxent_target 2 = 55971/100000 := rfl

lemma maxent_target_e3 : maxent_target 3 = 23719/100000 := rfl

lemma maxent_target_e4 : maxent_target 4 = 8966/100000 := rfl

lemma maxent_target_e5 : maxent_target 5 = 5858/100000 := rfl

lemma maxent_target_e6 : maxent_target 6 = 29/100000 := rfl

lemma maxent_target_e7 : maxent_target 7 = 281/100000 := rfl

lemma ns_real_e0 : ns (α := ℝ) 0 = 1 := rfl

lemma ns_real_e1 : ns (α := ℝ) 1 = -1 := rfl

lemma ns_real_e2 : ns (α := ℝ) 2 = -1 := rfl

lemma ns_real_e3 : ns (α := ℝ) 3 = 1 := rfl

lemma ns_real_e4 : ns (α := ℝ) 4 = -1 := rfl

lemma ns_real_e5 : ns (α := ℝ) 5 = 1 := rfl

lemma ns_real_e6 : ns (α := ℝ) 6 = 1 := rfl

lemma ns_real_e7 : ns (α := ℝ) 7 = -1 := rfl


/-- `vp_example` solves the normal equations for the worked example's
observations: it is a genuine least-squares output of `solve_linear`. -/
lemma vp_example_normal : normal_eq obs_example vp_example := by
  refine forall_fin_eight ?_ ?_ ?_ ?_ ?_ ?_ ?_ ?_ <;>
    · first

        | rw [margin_col_0 (fun i =>
            Matrix.mulVec margin_transform vp_example i - obs_example i)]
        | rw [margin_col_1 (fun i =>
            Matrix.mulVec margin_transform vp_example i - obs_example i)]
        | rw [margin_col_2 (fun i =>
            Matrix.mulVec margin_transform vp_example i - obs_example i)]
        | rw [margin_col_3 (fun i =>
            Matrix.mulVec margin_transform vp_example i - obs_example i)]
        | rw [margin_col_4 (fun i =>
            Matrix.mulVec margin_transform vp_example i - obs_example i)]
        | rw [margin_col_5 (fun i =>
            Matrix.mulVec margin_transform vp_example i - obs_example i)]
        | rw [margin_col_6 (fun i =>
            Matrix.mulVec margin_transform vp_example i - obs_example i)]
        | rw [margin_col_7 (fun i =>
            Matrix.mulVec margin_transform vp_example i - obs_example i)]
      simp only [margin_apply_0, margin_apply_1, margin_apply_2, margin_apply_3,
        margin_apply_4, margin_apply_5, margin_apply_6, margin_apply_7, margin_apply_8,
        margin_apply_9, margin_apply_10, margin_apply_11, vp_example_e0, vp_example_e1,
        vp_example_e2, vp_example_e3, vp_example_e4, vp_example_e5, vp_example_e6,
        vp_example_e7]
      norm_num [obs_example, assemble_observations, estimate_joint_xx,
        d1_example, d2_example, x1_marginal_example, x2_marginal_example]

end MarginRecovery

namespace MarginRecovery

/-- C2. For the worked example's inputs (`d1`, `d2`, and the `x1 × x2` joint
built by `estimate_joint_xx` from the marginals `(0.7, 0.3)` and `(0.2, 0.8)`),
the pipeline's maximum-entropy selection exists, and every selection lies
within `1e-4` of the vector `(0.05034, 0.00142, 0.55971, 0.23719, 0.08966,
0.05858, 0.00029, 0.00281)` in cell order
`(0,0,F), (1,0,F), (0,1,F), (1,1,F), (0,0,T), (1,0,T), (0,1,T), (1,1,T)`. -/
theorem worked_example_maxent_within_tolerance :
    (∃ w, select_maxent obs_example w)
      ∧ ∀ w, select_maxent obs_example w → ∀ k, |w k - maxent_target k| < 1/10000 := by
  have hvp_l : is_lstsq obs_example vp_example :=
    normal_eq_is_lstsq obs_example vp_example vp_example_normal
  -- bracket the root of the entropy gradient (the balanced-product condition)
  set q : ℝ → ℝ := fun z =>
    (vp_example 0 + z) * (vp_example 3 + z) * (vp_example 5 + z) * (vp_example 6 + z)
      - (vp_example 1 - z) * (vp_example 2 - z) * (vp_example 4 - z) * (vp_example 7 - z)
    with hq_def
  have hcont : ContinuousOn q (Set.Icc (-(3840090:ℝ)/100000000) (-(3840088:ℝ)/100000000)) := by
    rw [hq_def]
    apply Continuous.continuousOn
    continuity
  have h12 : (-(3840090:ℝ)/100000000) ≤ (-(3840088:ℝ)/100000000) := by norm_num
  have hsign1 : q (-(3840090:ℝ)/100000000) < 0 := by
    rw [hq_def]
    simp only [vp_example_e0, vp_example_e1, vp_example_e2, vp_example_e3, vp_example_e4,
      vp_example_e5, vp_example_e6, vp_example_e7]
    norm_num
  have hsign2 : 0 < q (-(3840088:ℝ)/100000000) := by
    rw [hq_def]
    simp only [vp_example_e0, vp_example_e1, vp_example_e2, vp_example_e3, vp_example_e4,
      vp_example_e5, vp_example_e6, vp_example_e7]
    norm_num
  have h0mem : (0:ℝ) ∈ Set.Icc (q (-(3840090:ℝ)/100000000)) (q (-(3840088:ℝ)/100000000)) :=
    ⟨le_of_lt hsign1, le_of_lt hsign2⟩
  obtain ⟨zs, hzmem, hzroot⟩ := intermediate_value_Icc h12 hcont h0mem
  have hz1 : -(3840090:ℝ)/100000000 ≤ zs := hzmem.1
  have hz2 : zs ≤ -(3840088:ℝ)/100000000 := hzmem.2
  -- the candidate maximum-entropy point
  set w0 : Fin 8 → ℝ := fun k => vp_example k + zs * ns k with hw0_def
  have hw0e : ∀ k, w0 k = vp_example k + zs * ns k := fun k => rfl
  -- positivity of each factor
  have hp0 : 0 < vp_example 0 + zs := by rw [vp_example_e0]; linarith
  have hp3 : 0 < vp_example 3 + zs := by rw [vp_example_e3]; linarith
  have hp5 : 0 < vp_example 5 + zs := by rw [vp_example_e5]; linarith
  have hp6 : 0 < vp_example 6 + zs := by rw [vp_example_e6]; linarith
  have hm1 : 0 < vp_example 1 - zs := by rw [vp_example_e1]; linarith
  have hm2 : 0 < vp_example 2 - zs := by rw [vp_example_e2]; linarith
  have hm4 : 0 < vp_example 4 - zs := by rw [vp_example_e4]; linarith
  have hm7 : 0 < vp_example 7 - zs := by rw [vp_example_e7]; linarith
  have hw0pos : ∀ k, 0 < w0 k := by
    refine forall_fin_eight ?_ ?_ ?_ ?_ ?_ ?_ ?_ ?_ <;>
      rw [hw0e]
    · rw [ns_real_e0]; linarith
    · rw [ns_real_e1]; linarith
    · rw [ns_real_e2]; linarith
    · rw [ns_real_e3]; linarith
    · rw [ns_real_e4]; linarith
    · rw [ns_real_e5]; linarith
    · rw [ns_real_e6]; linarith
    · rw [ns_real_e7]; linarith
  -- the balanced-product condition at the root
  have hprod : (vp_example 0 + zs) * (vp_example 3 + zs) * (vp_example 5 + zs)
        * (vp_example 6 + zs)
      = (vp_example 1 - zs) * (vp_example 2 - zs) * (vp_example 4 - zs)
        * (vp_example 7 - zs) := by
    have h : (vp_example 0 + zs) * (vp_example 3 + zs) * (vp_example 5 + zs)
          * (vp_example 6 + zs)
        - (vp_example 1 - zs) * (vp_example 2 - zs) * (vp_example 4 - zs)
          * (vp_example 7 - zs) = 0 := hzroot
    linarith [h]
  -- log-orthogonality of the candidate
  have hlorth : log_orth w0 := by
    have hP : Real.log ((vp_example 0 + zs) * (vp_example 3 + zs) * (vp_example 5 + zs)
          * (vp_example 6 + zs))
        = Real.log (vp_example 0 + zs) + Real.log (vp_example 3 + zs)
          + Real.log (vp_example 5 + zs) + Real.log (vp_example 6 + zs) := by
      rw [Real.log_mul (ne_of_gt (mul_pos (mul_pos hp0 hp3) hp5)) (ne_of_gt hp6),
        Real.log_mul (ne_of_gt (mul_pos hp0 hp3)) (ne_of_gt hp5),
        Real.log_mul (ne_of_gt hp0) (ne_of_gt hp3)]
    have hQ : Real.log ((vp_example 1 - zs) * (vp_example 2 - zs) * (vp_example 4 - zs)
          * (vp_example 7 - zs))
        = Real.log (vp_example 1 - zs) + Real.log (vp_example 2 - zs)
          + Real.log (vp_example 4 - zs) + Real.log (vp_example 7 - zs) := by
      rw [Real.log_mul (ne_of_gt (mul_pos (mul_pos hm1 hm2) hm4)) (ne_of_gt hm7),
        Real.log_mul (ne_of_gt (mul_pos hm1 hm2)) (ne_of_gt hm4),
        Real.log_mul (ne_of_gt hm1) (ne_of_gt hm2)]
    have hPQ : Real.log ((vp_example 0 + zs) * (vp_example 3 + zs) * (vp_example 5 + zs)
          * (vp_example 6 + zs))
        = Real.log ((vp_example 1 - zs) * (vp_example 2 - zs) * (vp_example 4 - zs)
          * (vp_example 7 - zs)) := by
      rw [hprod]
    unfold log_orth
    rw [Fin.sum_univ_eight]
    rw [hw0e, hw0e, hw0e, hw0e, hw0e, hw0e, hw0e, hw0e]
    rw [ns_real_e0, ns_real_e1, ns_real_e2, ns_real_e3, ns_real_e4, ns_real_e5,
      ns_real_e6, ns_real_e7]
    have e0 : vp_example 0 + zs * (1:ℝ) = vp_example 0 + zs := by ring
    have e1 : vp_example 1 + zs * (-1:ℝ) = vp_example 1 - zs := by ring
    have e2 : vp_example 2 + zs * (-1:ℝ) = vp_example 2 - zs := by ring
    have e3 : vp_example 3 + zs * (1:ℝ) = vp_example 3 + zs := by ring
    have e4 : vp_example 4 + zs * (-1:ℝ) = vp_example 4 - zs := by ring
    have e5 : vp_example 5 + zs * (1:ℝ) = vp_example 5 + zs := by ring
    have e6 : vp_example 6 + zs * (1:ℝ) = vp_example 6 + zs := by ring
    have e7 : vp_example 7 + zs * (-1:ℝ) = vp_example 7 - zs := by ring
    rw [e0, e1, e2, e3, e4, e5, e6, e7]
    linarith [hP, hQ, hPQ]
  -- the candidate is a least-squares solution
  have hw0l : is_lstsq obs_example w0 := lstsq_shift obs_example vp_example hvp_l zs
  -- it is the unique maximum-entropy selection
  have hmain := select_maxent_of_log_orth obs_example w0 hw0l hw0pos hlorth
  refine ⟨⟨w0, hmain.1⟩, ?_⟩
  intro w hw
  rw [hmain.2 w hw]
  refine forall_fin_eight ?_ ?_ ?_ ?_ ?_ ?_ ?_ ?_ <;>
    rw [hw0e]
  · rw [ns_real_e0, vp_example_e0, maxent_target_e0, abs_lt]
    constructor <;> linarith
  · rw [ns_real_e1, vp_example_e1, maxent_target_e1, abs_lt]
    constructor <;> linarith
  · rw [ns_real_e2, vp_example_e2, maxent_target_e2, abs_lt]
    constructor <;> linarith
  · rw [ns_real_e3, vp_example_e3, maxent_target_e3, abs_lt]
    constructor <;> linarith
  · rw [ns_real_e4, vp_example_e4, maxent_target_e4, abs_lt]
    constructor <;> linarith
  · rw [ns_real_e5, vp_example_e5, maxent_target_e5, abs_lt]
    constructor <;> linarith
  · rw [ns_real_e6, vp_example_e6, maxent_target_e6, abs_lt]
    constructor <;> linarith
  · rw [ns_real_e7, vp_example_e7, maxent_target_e7, abs_lt]
    constructor <;> linarith

end MarginRecovery
